import Mathlib

/-!
Verification of the tinyclaw merge engine (directory `merge-engine/src`).

This file gives a shallow embedding, in Lean 4, of the data model and the
algorithms of the merge engine: the line-level diff3 (`diff3.rs`), the
pattern rules (`patterns.rs`), the search stage (`search.rs`), the CST data
model (`types.rs`), the matcher (`matcher.rs`), the amalgamator
(`amalgamator.rs`), the version-space stage (`vsa.rs`) and the resolver
(`resolver.rs`), together with theorems settling the behavioural claims
about them.

Modelling conventions:
* Rust `String` / `&str` values are embedded as `List Char` (`Str` below);
  string literals are written as `"...".data`.
* Rust `f64` scores are embedded as exact rationals (`Rat`).
* Rust `usize` / `i64` are embedded as `Nat` / `Int`; no computation in the
  engine comes near an overflow for realistic inputs, so no wrap-around is
  modelled.
* Rust `HashMap` built by `collect` over pairs is embedded as an
  association list whose lookup returns the last binding (matching insert
  overwrite semantics); `HashSet`-based deduplication keeps first
  occurrences, as `insert`-and-`retain` does.
* The external line tokenizer / LCS diff of the `similar` crate
  (`TextDiff::from_lines`) and the external tree-sitter parser are not part
  of the repository; they are modelled from the spec where needed (see
  `lineDiff` and `TSNode`).
-/

set_option maxHeartbeats 1000000

namespace Tinyclaw

/-- Embedded Rust string: a list of characters. -/
abbrev Str := List Char

/-- Is the character whitespace (the characters relevant to the engine). -/
def isWs (c : Char) : Bool :=
  c = ' ' || c = '\t' || c = '\n' || c = '\r'

/-- Rust `str::trim`: drop whitespace from both ends. -/
def trimStr (s : Str) : Str :=
  ((s.dropWhile isWs).reverse.dropWhile isWs).reverse

/-- Trailing-newline trim, Rust `trim_end_matches('\n')`. -/
def trimNl : Str → Str
  | [] => []
  | c :: rest =>
    let r := trimNl rest
    if r = [] then (if c = '\n' then [] else [c]) else c :: r

/-- Line split used by the `similar` crate tokenizer `TextDiff::from_lines`:
split after every newline character, keeping the newline in the segment;
a final segment without newline is kept; the empty text has no segments. -/
def splitKeep : Str → List Str
  | [] => []
  | c :: rest =>
    if c = '\n' then ['\n'] :: splitKeep rest
    else
      match splitKeep rest with
      | [] => [[c]]
      | s :: ss => (c :: s) :: ss

/-- Rust `str::lines()`: split on newline, dropping the line terminators
(also a trailing carriage return) and a final empty segment. -/
def rustLines (s : Str) : List Str :=
  (splitKeep s).map fun seg =>
    let seg := trimNl seg
    match seg.reverse with
    | '\r' :: r => r.reverse
    | _ => seg

/-- Rust `str::split_whitespace`: maximal non-whitespace runs. -/
def splitWs : Str → List Str
  | [] => []
  | c :: rest =>
    if isWs c then splitWs rest
    else
      match splitWs rest with
      | [] => [[c]]
      | w :: ws =>
        match rest with
        | [] => [[c]]
        | d :: _ => if isWs d then [c] :: w :: ws else (c :: w) :: ws

/-- Byte-wise (here: code-point-wise) lexicographic `≤` on strings, the
`Ord` instance Rust sorts `String`s by. -/
def lexLe : Str → Str → Bool
  | [], _ => true
  | _ :: _, [] => false
  | a :: as, b :: bs =>
    if a.toNat < b.toNat then true
    else if b.toNat < a.toNat then false
    else lexLe as bs

/-- Concatenate a list of lines with newline separators, Rust
`Vec::join("\n")`. -/
def joinNl : List Str → Str
  | [] => []
  | [l] => l
  | l :: ls => l ++ '\n' :: joinNl ls

/-- Append the contents of a list of lists, used to flatten hunks. -/
def flat (ls : List Str) : Str := ls.foldr (· ++ ·) []

/- ──────────────────────────  types.rs  ────────────────────────── -/

/-- `types.rs` `Confidence`, ordered `Low < Medium < High`. -/
inductive Confidence where
  | low
  | medium
  | high
  deriving DecidableEq, Repr

/-- Numeric rank of a confidence, realising the derived `Ord`. -/
def Confidence.rank : Confidence → Nat
  | .low => 0
  | .medium => 1
  | .high => 2

/-- `Confidence` comparison `a >= b` from the derived `Ord`. -/
def Confidence.ge (a b : Confidence) : Bool := b.rank ≤ a.rank

/-- `types.rs` `ResolutionStrategy`. -/
inductive ResolutionStrategy where
  | diff3
  | structuredMerge
  | versionSpaceAlgebra
  | patternRule
  | searchBased
  deriving DecidableEq, Repr

/-- `types.rs` `ResolutionCandidate`. -/
structure ResolutionCandidate where
  content : Str
  confidence : Confidence
  strategy : ResolutionStrategy
  deriving DecidableEq, Repr

/-- `types.rs` `MergeScenario<T>`. -/
structure MergeScenario (T : Type) where
  base : T
  left : T
  right : T
  deriving DecidableEq, Repr

/-- `types.rs` `MergeResult`. -/
inductive MergeResult where
  | resolved (text : Str)
  | conflict (base left right : Str)
  deriving DecidableEq, Repr

/-- `MergeResult::is_resolved`. -/
def MergeResult.isResolved : MergeResult → Bool
  | .resolved _ => true
  | _ => false

/-- `types.rs` `Diff3Hunk`. -/
inductive Diff3Hunk where
  | stable (lines : List Str)
  | leftChanged (lines : List Str)
  | rightChanged (lines : List Str)
  | conflict (base left right : List Str)
  deriving DecidableEq, Repr

/-- Is the hunk a `Conflict` hunk. -/
def Diff3Hunk.isConflict : Diff3Hunk → Bool
  | .conflict _ _ _ => true
  | _ => false

/-- `types.rs` `Language`. -/
inductive Language where
  | rust
  | javascript
  | typescript
  | python
  | java
  | go
  | c
  | cpp
  deriving DecidableEq, Repr

/-- `parser.rs` `ParseError`. -/
inductive ParseError where
  | languageError (msg : Str)
  | parseFailed
  deriving DecidableEq, Repr

/- ──────────────────────────  diff3.rs  ────────────────────────── -/

/-- One change of a line diff, as the `similar` crate reports it
(`ChangeTag` together with the changed line). -/
inductive Change where
  | equal (line : Str)
  | del (line : Str)
  | ins (line : Str)
  deriving DecidableEq, Repr

/-- LCS length of two sequences, fuel-based for structural termination
(used to model the diff choice and, later, `matcher.rs` `lcs_length`; the
recurrence is the one the source DP table fills: take the diagonal on
equal heads, otherwise the better skip). -/
def lcsLenF [DecidableEq α] : Nat → List α → List α → Nat
  | 0, _, _ => 0
  | _ + 1, [], _ => 0
  | _ + 1, _ :: _, [] => 0
  | f + 1, a :: as, b :: bs =>
    if a = b then lcsLenF f as bs + 1
    else max (lcsLenF f as (b :: bs)) (lcsLenF f (a :: as) bs)

/-- LCS length with its canonical fuel (`|a| + |b| + 1` always
suffices). -/
def lcsLen [DecidableEq α] (a b : List α) : Nat :=
  lcsLenF (a.length + b.length + 1) a b

/-- Modelled from the spec: the repository delegates line diffing to the
external `similar` crate (`TextDiff::from_lines`), which is not part of the
repository; per the spec it is "any LCS-based algorithm that yields a
stream of (keep|delete|insert) operations aligned to base lines". This is
such an algorithm on the tokenized line segments, with fuel for
termination (the fuel `|a| + |b| + 1` always suffices). -/
def lineDiffF : Nat → List Str → List Str → List Change
  | 0, _, _ => []
  | _ + 1, [], bs => bs.map Change.ins
  | f + 1, a :: as, [] => Change.del a :: lineDiffF f as []
  | f + 1, a :: as, b :: bs =>
    if a = b then Change.equal a :: lineDiffF f as bs
    else if lcsLen (a :: as) bs ≤ lcsLen as (b :: bs)
    then Change.del a :: lineDiffF f as (b :: bs)
    else Change.ins b :: lineDiffF f (a :: as) bs

/-- The line diff with its canonical fuel. -/
def lineDiff (a b : List Str) : List Change :=
  lineDiffF (a.length + b.length + 1) a b

/-- `diff3.rs` `LineOp`. -/
inductive LineOp where
  | keep
  | del
  | ins
  deriving DecidableEq, Repr

/-- The state machine of `diff3.rs` `extract_line_ops`: inserts are
buffered and flushed as one `Insert` op before the next keep/delete op and
at the end; keep/delete ops carry their single (newline-trimmed) line. -/
def extractOpsGo : List Str → List Change → List (LineOp × List Str)
  | pending, [] => if pending = [] then [] else [(LineOp.ins, pending)]
  | pending, Change.equal v :: rest =>
    (if pending = [] then [] else [(LineOp.ins, pending)]) ++
      (LineOp.keep, [trimNl v]) :: extractOpsGo [] rest
  | pending, Change.del v :: rest =>
    (if pending = [] then [] else [(LineOp.ins, pending)]) ++
      (LineOp.del, [trimNl v]) :: extractOpsGo [] rest
  | pending, Change.ins v :: rest => extractOpsGo (pending ++ [trimNl v]) rest

/-- `diff3.rs` `extract_line_ops`. -/
def extractLineOps (changes : List Change) : List (LineOp × List Str) :=
  extractOpsGo [] changes

/-- The loop body of `diff3.rs` `build_hunks`, walking both op streams;
the match arms are in the order of the source and fuel stands in for the
index-based `while` loop (the fuel `|l| + |r| + 1` always suffices since
every arm consumes at least one op). -/
def buildHunksGo : Nat → List (LineOp × List Str) → List (LineOp × List Str) →
    List Diff3Hunk
  | 0, _, _ => []
  | f + 1, lops, rops =>
    match lops, rops with
    | [], [] => []
    | (LineOp.ins, lv) :: ls, rops =>
      Diff3Hunk.leftChanged lv :: buildHunksGo f ls rops
    | [], (LineOp.ins, rv) :: rs =>
      Diff3Hunk.rightChanged rv :: buildHunksGo f [] rs
    | (LineOp.keep, lv1) :: ls, (LineOp.ins, rv) :: rs =>
      Diff3Hunk.rightChanged rv :: buildHunksGo f ((LineOp.keep, lv1) :: ls) rs
    | (LineOp.del, lv1) :: ls, (LineOp.ins, rv) :: rs =>
      Diff3Hunk.rightChanged rv :: buildHunksGo f ((LineOp.del, lv1) :: ls) rs
    | (LineOp.keep, lv) :: ls, (LineOp.keep, _) :: rs =>
      Diff3Hunk.stable lv :: buildHunksGo f ls rs
    | (LineOp.del, _) :: ls, (LineOp.del, _) :: rs => buildHunksGo f ls rs
    | (LineOp.del, _) :: ls, (LineOp.keep, _) :: rs => buildHunksGo f ls rs
    | (LineOp.keep, _) :: ls, (LineOp.del, _) :: rs => buildHunksGo f ls rs
    | (LineOp.keep, v) :: ls, [] => Diff3Hunk.stable v :: buildHunksGo f ls []
    | (LineOp.del, _) :: ls, [] => buildHunksGo f ls []
    | [], (LineOp.keep, v) :: rs => Diff3Hunk.stable v :: buildHunksGo f [] rs
    | [], (LineOp.del, _) :: rs => buildHunksGo f [] rs

/-- One step of `diff3.rs` `coalesce_hunks`, on the reversed accumulator
(the head plays the role of `result.last_mut()`). -/
def coalStepRev (racc : List Diff3Hunk) (h : Diff3Hunk) : List Diff3Hunk :=
  match racc, h with
  | Diff3Hunk.stable e :: rest, Diff3Hunk.stable n => Diff3Hunk.stable (e ++ n) :: rest
  | Diff3Hunk.leftChanged e :: rest, Diff3Hunk.leftChanged n =>
    Diff3Hunk.leftChanged (e ++ n) :: rest
  | Diff3Hunk.rightChanged e :: rest, Diff3Hunk.rightChanged n =>
    Diff3Hunk.rightChanged (e ++ n) :: rest
  | _, _ => h :: racc

/-- `diff3.rs` `coalesce_hunks`. -/
def coalesceHunks (hs : List Diff3Hunk) : List Diff3Hunk :=
  (hs.foldl coalStepRev []).reverse

/-- `diff3.rs` `build_hunks` (walk plus coalescing). -/
def buildHunks (lops rops : List (LineOp × List Str)) : List Diff3Hunk :=
  coalesceHunks (buildHunksGo (lops.length + rops.length + 1) lops rops)

/-- `diff3.rs` `diff3_hunks`. -/
def diff3Hunks (s : MergeScenario Str) : List Diff3Hunk :=
  let leftOps := extractLineOps (lineDiff (splitKeep s.base) (splitKeep s.left))
  let rightOps := extractLineOps (lineDiff (splitKeep s.base) (splitKeep s.right))
  buildHunks leftOps rightOps

/-- Accumulator of the hunk walk inside `diff3.rs` `diff3_merge`. -/
structure MergeAcc where
  hasConflict : Bool
  merged : Str
  cBase : Str
  cLeft : Str
  cRight : Str
  deriving Repr

/-- One hunk of the `diff3_merge` walk: non-conflict hunks append each
line followed by a newline; a conflict hunk overwrites the three recorded
conflict regions (as the source assignments do). -/
def mergeStep (acc : MergeAcc) : Diff3Hunk → MergeAcc
  | Diff3Hunk.stable lines =>
    { acc with merged := acc.merged ++ flat (lines.map (· ++ ['\n'])) }
  | Diff3Hunk.leftChanged lines =>
    { acc with merged := acc.merged ++ flat (lines.map (· ++ ['\n'])) }
  | Diff3Hunk.rightChanged lines =>
    { acc with merged := acc.merged ++ flat (lines.map (· ++ ['\n'])) }
  | Diff3Hunk.conflict b l r =>
    { acc with hasConflict := true, cBase := joinNl b, cLeft := joinNl l, cRight := joinNl r }

/-- `diff3.rs` `diff3_merge`. -/
def diff3Merge (s : MergeScenario Str) : MergeResult :=
  let acc := (diff3Hunks s).foldl mergeStep ⟨false, [], [], [], []⟩
  if acc.hasConflict then MergeResult.conflict acc.cBase acc.cLeft acc.cRight
  else MergeResult.resolved acc.merged

/-- `diff3.rs` `extract_conflicts`. -/
def extractConflicts (s : MergeScenario Str) : List (MergeScenario Str) :=
  (diff3Hunks s).filterMap fun h =>
    match h with
    | Diff3Hunk.conflict b l r => some ⟨joinNl b, joinNl l, joinNl r⟩
    | _ => none

/- ─────────────────────────  patterns.rs  ───────────────────────── -/

/-- `patterns.rs` `normalize_whitespace`: whitespace-splitting then
joining with single spaces. -/
def normalizeWhitespace (s : Str) : Str :=
  joinSp (splitWs s)
where
  joinSp : List Str → Str
    | [] => []
    | [w] => w
    | w :: ws => w ++ ' ' :: joinSp ws

/-- Rust `str::contains`: does `needle` occur contiguously in `hay`. -/
def containsSub (hay needle : Str) : Bool :=
  match hay with
  | [] => needle = []
  | _ :: t => needle.isPrefixOf hay || containsSub t needle

/-- `patterns.rs` `is_import_line` (note the Rust operator precedence: the
`const` prefix test is conjoined only with the `require(`/`import(`
containment check). -/
def isImportLine (line : Str) : Bool :=
  let trimmed := trimStr line
  "import ".data.isPrefixOf trimmed
    || "from ".data.isPrefixOf trimmed
    || "use ".data.isPrefixOf trimmed
    || "#include".data.isPrefixOf trimmed
    || "require(".data.isPrefixOf trimmed
    || ("const ".data.isPrefixOf trimmed
        && (containsSub trimmed "require(".data || containsSub trimmed "import(".data))

/-- The names of the seven pattern rules, in registry order. -/
inductive RuleName where
  | whitespaceOnly
  | identicalChange
  | bothAddLines
  | oneEmpty
  | prefixSuffix
  | importUnion
  | adjacentEdit
  deriving DecidableEq, Repr

/-- Stable insertion sort: `putAfter y x = true` keeps `x` behind `y`.
Models the (stable) Rust `sort` / `sort_by` calls of the engine. -/
def insSortBy (putAfter : α → α → Bool) : List α → List α
  | [] => []
  | x :: xs => insertBy (insSortBy putAfter xs) x
where
  insertBy : List α → α → List α
    | [], x => [x]
    | y :: ys, x => if putAfter y x then y :: insertBy ys x else x :: y :: ys

/-- Deduplication keeping first occurrences, as the source's
`!imports.contains(&trimmed)` push-guard and the `HashSet`-`retain`
pattern both do. -/
def dedupKeepFirst [DecidableEq α] : List α → List α
  | [] => []
  | x :: xs => x :: (dedupKeepFirst xs).filter (· ≠ x)

/-- `PatternRule::matches` for each rule of `patterns.rs`. -/
def ruleMatches (s : MergeScenario Str) : RuleName → Bool
  | RuleName.whitespaceOnly =>
    let bn := normalizeWhitespace s.base
    let ln := normalizeWhitespace s.left
    let rn := normalizeWhitespace s.right
    (bn = ln && bn = rn) || ln = rn
  | RuleName.identicalChange => s.left = s.right && s.left ≠ s.base
  | RuleName.bothAddLines =>
    trimStr s.base = [] && !(trimStr s.left = []) && !(trimStr s.right = [])
  | RuleName.oneEmpty =>
    let le := trimStr s.left = []
    let re := trimStr s.right = []
    (le && !re) || (!le && re)
  | RuleName.prefixSuffix =>
    let l := trimStr s.left
    let r := trimStr s.right
    if l = r then false
    else l.isPrefixOf r || r.isPrefixOf l || l.isSuffixOf r || r.isSuffixOf l
  | RuleName.importUnion =>
    let allImports := fun (t : Str) =>
      ((rustLines t).filter (fun l => !(trimStr l = []))).all isImportLine
    allImports s.base && allImports s.left && allImports s.right
  | RuleName.adjacentEdit =>
    let b := rustLines s.base
    let l := rustLines s.left
    let r := rustLines s.right
    if b.length ≠ l.length || b.length ≠ r.length then false
    else if (List.range b.length).any fun i =>
        b.getD i [] ≠ l.getD i [] && b.getD i [] ≠ r.getD i [] then false
    else
      ((b.zip l).any fun p => p.1 ≠ p.2) && ((b.zip r).any fun p => p.1 ≠ p.2)

/-- `PatternRule::resolve` for each rule of `patterns.rs`. -/
def ruleResolve (s : MergeScenario Str) : RuleName → Str
  | RuleName.whitespaceOnly => s.left
  | RuleName.identicalChange => s.left
  | RuleName.bothAddLines =>
    (if s.left.getLast? = some '\n' then s.left else s.left ++ ['\n']) ++ s.right
  | RuleName.oneEmpty => if trimStr s.left = [] then s.right else s.left
  | RuleName.prefixSuffix =>
    if (trimStr s.right).length ≤ (trimStr s.left).length then s.left else s.right
  | RuleName.importUnion =>
    let imports := dedupKeepFirst
      (((rustLines s.left ++ rustLines s.right).map trimStr).filter (· ≠ []))
    joinNl (insSortBy (fun y x => !(lexLe x y)) imports)
  | RuleName.adjacentEdit =>
    let b := rustLines s.base
    let l := rustLines s.left
    let r := rustLines s.right
    joinNl ((List.range b.length).map fun i =>
      if b.getD i [] ≠ l.getD i [] then l.getD i []
      else if b.getD i [] ≠ r.getD i [] then r.getD i []
      else b.getD i [])

/-- `PatternRule::confidence` for each rule of `patterns.rs`. -/
def ruleConfidence : RuleName → Confidence
  | RuleName.whitespaceOnly => Confidence.high
  | RuleName.identicalChange => Confidence.high
  | RuleName.bothAddLines => Confidence.medium
  | RuleName.oneEmpty => Confidence.medium
  | RuleName.prefixSuffix => Confidence.medium
  | RuleName.importUnion => Confidence.high
  | RuleName.adjacentEdit => Confidence.high

/-- The registry's rule order (`PatternRegistry::new`). -/
def registryRules : List RuleName :=
  [RuleName.whitespaceOnly, RuleName.identicalChange, RuleName.bothAddLines,
   RuleName.oneEmpty, RuleName.prefixSuffix, RuleName.importUnion,
   RuleName.adjacentEdit]

/-- `PatternRegistry::try_resolve`: first matching rule wins. -/
def tryResolve (s : MergeScenario Str) : Option ResolutionCandidate :=
  (registryRules.find? (ruleMatches s)).map fun r =>
    ⟨ruleResolve s r, ruleConfidence r, ResolutionStrategy.patternRule⟩

/- ──────────────────────────  search.rs  ────────────────────────── -/

/-- `search.rs` `SearchConfig` (`f64` weights embedded as rationals). -/
structure SearchConfig where
  maxCandidates : Nat
  maxGenerations : Nat
  populationSize : Nat
  leftWeight : Rat
  rightWeight : Rat
  basePenalty : Rat

/-- `SearchConfig::default`. -/
def SearchConfig.default : SearchConfig :=
  ⟨50, 20, 30, 45 / 100, 45 / 100, 10 / 100⟩

/-- `search.rs` `jaccard_similarity` on whitespace-token sets. -/
def jaccard (a b : Str) : Rat :=
  let ta := dedupKeepFirst (splitWs a)
  let tb := dedupKeepFirst (splitWs b)
  if ta = [] && tb = [] then 1
  else
    let inter := (ta.filter (· ∈ tb)).length
    let uni := (ta ++ tb.filter (· ∉ ta)).length
    if uni = 0 then 0 else (inter : Rat) / (uni : Rat)

/-- `search.rs` `fitness`. -/
def fitness (candidate : Str) (s : MergeScenario Str) (cfg : SearchConfig) : Rat :=
  cfg.leftWeight * jaccard candidate s.left + cfg.rightWeight * jaccard candidate s.right
    - cfg.basePenalty * jaccard candidate s.base

/-- `search.rs` `interleave_lines`. -/
def interleaveLines (left right : List Str) : Str :=
  joinNl ((List.range (max left.length right.length)).foldr
    (fun i acc =>
      (if i < left.length then [left.getD i []] else []) ++
      (if i < right.length && (left.length ≤ i || left.getD i [] ≠ right.getD i [])
        then [right.getD i []] else []) ++ acc)
    [])

/-- `search.rs` `generate_chunk_combinations`. -/
def chunkCombos (left right : List Str) : List Str :=
  if left = [] || right = [] then []
  else
    ((List.range left.length).drop 1).map (fun split =>
      joinNl (left.take split) ++ '\n' :: joinNl (right.drop (min split right.length))) ++
    ((List.range right.length).drop 1).map (fun split =>
      joinNl (right.take split) ++ '\n' :: joinNl (left.drop (min split left.length)))

/-- `search.rs` `generate_line_selections`. -/
def lineSelections (left right : List Str) : List Str :=
  let n := min left.length right.length
  if n = 0 then []
  else
    [joinNl (left.take n), joinNl (right.take n),
     joinNl ((List.range n).map fun i =>
       if i % 2 = 0 then left.getD i [] else right.getD i [])]

/-- `search.rs` `crossover`. -/
def crossover (a b : Str) : Str :=
  let al := rustLines a
  let bl := rustLines b
  joinNl (al.take (al.length / 2) ++ bl.drop (bl.length / 2))

/-- `search.rs` `mutate_swap` (swap the two middle lines). -/
def mutateSwap (candidate : Str) : Str :=
  let lines := rustLines candidate
  if 2 ≤ lines.length then
    let mid := lines.length / 2
    joinNl ((lines.set (mid - 1) (lines.getD mid [])).set mid (lines.getD (mid - 1) []))
  else joinNl lines

/-- Descending stable sort of (candidate, score) pairs, the
`sort_by(partial_cmp(b, a))` calls of `search.rs` (no NaN arises: every
score is a real quotient). -/
def sortScoredDesc (scored : List (Str × Rat)) : List (Str × Rat) :=
  insSortBy (fun y x => x.2 < y.2) scored

/-- `search.rs` `select_best`. -/
def selectBest (population : List Str) (s : MergeScenario Str) (cfg : SearchConfig)
    (target : Nat) : List Str :=
  let scored := population.map fun c => (c, fitness c s cfg)
  ((dedupKeepFirst ((sortScoredDesc scored).map (·.1))).take target)

/-- The crossover double loop of `search.rs` `search_resolve`: children of
all index pairs `i < j`, cut off at the population size. -/
def crossoverPool (population : List Str) (limit : Nat) : List Str :=
  (((List.range population.length).flatMap fun i =>
    ((List.range population.length).drop (i + 1)).map fun j =>
      crossover (population.getD i []) (population.getD j [])).take limit)

/-- One generation of the evolutionary loop of `search_resolve`. -/
def generationStep (s : MergeScenario Str) (cfg : SearchConfig)
    (population : List Str) : List Str :=
  let newPop := crossoverPool population cfg.populationSize
  let newPop := newPop ++ (population.map mutateSwap).take (cfg.populationSize - newPop.length)
  selectBest (population ++ newPop) s cfg cfg.populationSize

/-- `search.rs` `search_resolve`. -/
def searchResolve (s : MergeScenario Str) (cfg : SearchConfig) :
    List ResolutionCandidate :=
  let leftLines := rustLines s.left
  let rightLines := rustLines s.right
  let population :=
    [s.left ++ '\n' :: s.right, s.right ++ '\n' :: s.left, s.left, s.right,
     interleaveLines leftLines rightLines] ++
    chunkCombos leftLines rightLines ++ lineSelections leftLines rightLines
  let population := cfg.maxGenerations.iterate (generationStep s cfg) population
  let scored := population.map fun c => (c, fitness c s cfg)
  ((dedupKeepFirst ((sortScoredDesc scored).map (·.1))).take cfg.maxCandidates).map
    fun content => ⟨content, Confidence.low, ResolutionStrategy.searchBased⟩

/- ──────────────────  types.rs: the CST data model  ────────────────── -/

/-- `types.rs` `ListOrdering`. -/
inductive ListOrdering where
  | ordered
  | unordered
  deriving DecidableEq, Repr

mutual
/-- `types.rs` `CstNode`; the child vector is embedded as the isomorphic
`CstList` so that all tree recursions are structural. -/
inductive CstNode where
  | leaf (id : Nat) (kind : Str) (value : Str)
  | constructed (id : Nat) (kind : Str) (children : CstList)
  | list (id : Nat) (kind : Str) (ordering : ListOrdering) (children : CstList)
  deriving DecidableEq, Repr
/-- A vector of `CstNode`s (isomorphic to `List CstNode`). -/
inductive CstList where
  | nil
  | cons (head : CstNode) (tail : CstList)
  deriving DecidableEq, Repr
end

/-- View of a `CstList` as a `List`. -/
def CstList.toList : CstList → List CstNode
  | .nil => []
  | .cons c cs => c :: cs.toList

/-- Build a `CstList` from a `List`. -/
def CstList.ofList : List CstNode → CstList
  | [] => .nil
  | c :: cs => .cons c (ofList cs)

instance : Inhabited CstNode := ⟨CstNode.leaf 0 [] []⟩

/-- `CstNode::id`. -/
def CstNode.id : CstNode → Nat
  | .leaf i _ _ => i
  | .constructed i _ _ => i
  | .list i _ _ _ => i

/-- `CstNode::kind`. -/
def CstNode.kind : CstNode → Str
  | .leaf _ k _ => k
  | .constructed _ k _ => k
  | .list _ k _ _ => k

/-- `CstNode::children` (a leaf has none). -/
def CstNode.children : CstNode → List CstNode
  | .leaf _ _ _ => []
  | .constructed _ _ cs => cs.toList
  | .list _ _ _ cs => cs.toList

/-- `CstNode::is_leaf`. -/
def CstNode.isLeaf : CstNode → Bool
  | .leaf _ _ _ => true
  | _ => false

/-- `CstNode::leaf_value`. -/
def CstNode.leafValue : CstNode → Option Str
  | .leaf _ _ v => some v
  | _ => none

mutual
/-- `CstNode::size`: nodes in the subtree. -/
def CstNode.size : CstNode → Nat
  | .leaf _ _ _ => 1
  | .constructed _ _ cs => 1 + cs.sizes
  | .list _ _ _ cs => 1 + cs.sizes
/-- Sum of sizes over a child vector. -/
def CstList.sizes : CstList → Nat
  | .nil => 0
  | .cons c cs => c.size + cs.sizes
end

mutual
/-- `CstNode::collect_leaves`: pre-order leaf values. -/
def CstNode.collectLeaves : CstNode → List Str
  | .leaf _ _ v => [v]
  | .constructed _ _ cs => cs.collectLeavesL
  | .list _ _ _ cs => cs.collectLeavesL
/-- Leaves of a child vector, in order. -/
def CstList.collectLeavesL : CstList → List Str
  | .nil => []
  | .cons c cs => c.collectLeaves ++ cs.collectLeavesL
end

/-- `CstNode::to_source`: concatenation of the pre-order leaf values. -/
def CstNode.toSource (n : CstNode) : Str := flat n.collectLeaves

mutual
/-- `CstNode::structurally_equal` (ignores ids; compares kind, value,
ordering and children recursively; distinct variants never equal). -/
def CstNode.structurallyEqual : CstNode → CstNode → Bool
  | .leaf _ k1 v1, .leaf _ k2 v2 => k1 = k2 && v1 = v2
  | .constructed _ k1 c1, .constructed _ k2 c2 => k1 = k2 && c1.pairwiseEq c2
  | .list _ k1 o1 c1, .list _ k2 o2 c2 => k1 = k2 && o1 = o2 && c1.pairwiseEq c2
  | _, _ => false
/-- Pointwise structural equality of child vectors of equal length. -/
def CstList.pairwiseEq : CstList → CstList → Bool
  | .nil, .nil => true
  | .cons a as, .cons b bs => a.structurallyEqual b && as.pairwiseEq bs
  | _, _ => false
end

/-- `types.rs` `MatchPair`. -/
structure MatchPair where
  left : Nat
  right : Nat
  score : Nat
  deriving DecidableEq, Repr

/- ──────────────  parser.rs (over modelled tree-sitter)  ────────────── -/

mutual
/-- Modelled from the spec: a node of the external tree-sitter parse tree
(the `tree_sitter` crate is not part of the repository). A node carries
its grammar `kind` and the byte span `[start, stop)` of the source it
covers; `utf8_text` is the source slice of that span. Children spans are
ordered and contained in the parent span, but — as in tree-sitter — they
need not tile it: whitespace between sibling tokens belongs to no node. -/
inductive TSNode where
  | mk (kind : Str) (start stop : Nat) (children : TSList)
  deriving DecidableEq, Repr
/-- Children of a tree-sitter node. -/
inductive TSList where
  | nil
  | cons (head : TSNode) (tail : TSList)
  deriving DecidableEq, Repr
end

/-- The `kind` of a modelled tree-sitter node. -/
def TSNode.kind : TSNode → Str
  | .mk k _ _ _ => k

/-- `tree_sitter::Node::utf8_text`: the source slice of the node's span. -/
def TSNode.utf8Text (source : Str) : TSNode → Str
  | .mk _ start stop _ => (source.drop start).take (stop - start)

/-- `parser.rs` `classify_ordering`. -/
def classifyOrdering (kind : Str) : ListOrdering :=
  if kind = "use_declaration_list".data || kind = "import_list".data
      || kind = "import_statement".data || kind = "imports".data
      || kind = "class_body".data || kind = "enum_body".data
      || kind = "interface_body".data || kind = "declaration_list".data
  then ListOrdering.unordered
  else ListOrdering.ordered

/-- `parser.rs` `is_list_node`. -/
def isListNode (kind : Str) : Bool :=
  containsSub kind "block".data || containsSub kind "body".data
    || containsSub kind "list".data || containsSub kind "statements".data
    || containsSub kind "arguments".data || containsSub kind "parameters".data
    || "_list".data.isSuffixOf kind || kind = "program".data
    || kind = "source_file".data || kind = "module".data
    || kind = "translation_unit".data

mutual
/-- `parser.rs` `ts_node_to_cst`, with the process-global id counter made
an explicit pre-order counter (returning the next fresh id). -/
def tsNodeToCst (source : Str) (next : Nat) : TSNode → CstNode × Nat
  | TSNode.mk kind start stop children =>
    match children with
    | TSList.nil => (CstNode.leaf next kind ((source.drop start).take (stop - start)), next + 1)
    | TSList.cons c cs =>
      let conv := tsListToCst source (next + 1) (TSList.cons c cs)
      if isListNode kind || 3 < conv.1.length then
        (CstNode.list next kind (classifyOrdering kind) (CstList.ofList conv.1), conv.2)
      else (CstNode.constructed next kind (CstList.ofList conv.1), conv.2)
/-- Conversion of a tree-sitter child vector, threading the id counter. -/
def tsListToCst (source : Str) (next : Nat) : TSList → List CstNode × Nat
  | TSList.nil => ([], next)
  | TSList.cons c cs =>
    let nodeRes := tsNodeToCst source next c
    let restRes := tsListToCst source nodeRes.2 cs
    (nodeRes.1 :: restRes.1, restRes.2)
end

/- ──────────────────────────  matcher.rs  ────────────────────────── -/

/-- `matcher.rs` `can_match`: same leafness and identical kinds. -/
def canMatch (l r : CstNode) : Bool :=
  l.isLeaf = r.isLeaf && l.kind = r.kind

/-- `matcher.rs` `tree_similarity`. -/
def treeSimilarity (l r : CstNode) : Nat :=
  if !canMatch l r then 0
  else
    match l, r with
    | CstNode.leaf _ _ v1, CstNode.leaf _ _ v2 => if v1 = v2 then 1 else 0
    | _, _ => lcsLen l.collectLeaves r.collectLeaves

/-- One row of the Yang DP table (`dp[i][·]` from `dp[i-1][·]`), filled
left to right exactly as the source's inner loop does. -/
def yangRow (R : List CstNode) (li : CstNode) (prev : List Nat) : List Nat :=
  (List.range R.length).foldl (fun cur jm =>
    let rj := R.getD jm default
    let ms := if canMatch li rj then prev.getD jm 0 + treeSimilarity li rj else 0
    let sl := prev.getD (jm + 1) 0
    let sr := cur.getD jm 0
    cur ++ [if sl ≤ ms && sr ≤ ms && 0 < ms then ms else if sr ≤ sl then sl else sr]) [0]

/-- The full Yang DP table `dp[0..n][0..m]`; each new row is built from
the previous one (the accumulator is never empty, so the `getLastD`
default is never consulted). -/
def yangTable (L R : List CstNode) : List (List Nat) :=
  L.foldl (fun rows li => rows ++ [yangRow R li (rows.getLastD [])])
    [List.replicate (R.length + 1) 0]

/-- Table lookup `dp[i][j]` (out-of-range defaults to the table's `0`
initialisation). -/
def dpGet (t : List (List Nat)) (i j : Nat) : Nat := (t.getD i []).getD j 0

/-- The branch chosen at `(i, j)`, recomputed from the table; identical to
the `choice[i][j]` the source records while filling (`1` = match, `2` =
skip-left, `3` = skip-right). -/
def yangChoice (L R : List CstNode) (t : List (List Nat)) (i j : Nat) : Nat :=
  let li := L.getD (i - 1) default
  let rj := R.getD (j - 1) default
  let ms := if canMatch li rj then dpGet t (i - 1) (j - 1) + treeSimilarity li rj else 0
  let sl := dpGet t (i - 1) j
  let sr := dpGet t i (j - 1)
  if sl ≤ ms && sr ≤ ms && 0 < ms then 1 else if sr ≤ sl then 2 else 3

/-- The traceback loop of `yang_match` (emitting pairs newest-first, as
the source's `pairs` vector before its final `reverse`). -/
def yangTraceGo (L R : List CstNode) (t : List (List Nat)) :
    Nat → Nat → Nat → List MatchPair
  | 0, _, _ => []
  | _ + 1, 0, _ => []
  | _ + 1, _, 0 => []
  | fuel + 1, i + 1, j + 1 =>
    let c := yangChoice L R t (i + 1) (j + 1)
    if c = 1 then
      let li := L.getD i default
      let rj := R.getD j default
      ⟨li.id, rj.id, treeSimilarity li rj⟩ :: yangTraceGo L R t fuel i j
    else if c = 2 then yangTraceGo L R t fuel i (j + 1)
    else if c = 3 then yangTraceGo L R t fuel (i + 1) j
    else []

/-- `matcher.rs` `yang_match`. -/
def yangMatch (L R : List CstNode) : List MatchPair :=
  if L.length = 0 || R.length = 0 then []
  else
    (yangTraceGo L R (yangTable L R) (L.length + R.length + 1) L.length R.length).reverse

/-- Pointwise function update (models one slot assignment of a mutable
vector, the vectors of `hungarian_max` being total maps here). -/
def updFn [DecidableEq α] (f : α → β) (k : α) (val : β) : α → β :=
  fun x => if x = k then val else f x

/-- `i64::MAX`, the sentinel of `hungarian_max`. -/
def INTMAX : Int := 2 ^ 63 - 1

/-- The persistent state of `hungarian_max` (`p[j]` = row assigned to
column `j`, `0` = unassigned; `u`, `v` the potentials; `way` the
alternating-path predecessor links). -/
structure HGlobal where
  p : Nat → Nat
  u : Nat → Int
  v : Nat → Int
  way : Nat → Nat

/-- One pass of the augmenting-path `loop` in `hungarian_max`: mark `j0`
used, relax the unused columns from row `p[j0]`, pick the unused column
`j1` with minimal `minv`, and shift the potentials by `delta`. Returns
the updated `(u, v, way, minv, used, j1)`. -/
def searchPass (n : Nat) (cost : Nat → Nat → Int) (p : Nat → Nat)
    (u v : Nat → Int) (way : Nat → Nat) (minv : Nat → Int) (used : List Nat)
    (j0 : Nat) :
    (Nat → Int) × (Nat → Int) × (Nat → Nat) × (Nat → Int) × List Nat × Nat :=
  let used := used ++ [j0]
  let i0 := p j0
  let relaxed := (List.range n).foldl
    (fun (st : (Nat → Int) × (Nat → Nat) × Int × Nat) jm =>
      let j := jm + 1
      if used.contains j then st
      else
        let cur := cost (i0 - 1) (j - 1) - u i0 - v j
        let mv := if cur < st.1 j then updFn st.1 j cur else st.1
        let wy := if cur < st.1 j then updFn st.2.1 j j0 else st.2.1
        if mv j < st.2.2.1 then (mv, wy, mv j, j) else (mv, wy, st.2.2.1, st.2.2.2))
    (minv, way, INTMAX, 0)
  let delta := relaxed.2.2.1
  let shifted := (List.range (n + 1)).foldl
    (fun (st : (Nat → Int) × (Nat → Int) × (Nat → Int)) j =>
      if used.contains j then
        (updFn st.1 (p j) (st.1 (p j) + delta), updFn st.2.1 j (st.2.1 j - delta), st.2.2)
      else (st.1, st.2.1, updFn st.2.2 j (st.2.2 j - delta)))
    (u, v, relaxed.1)
  (shifted.1, shifted.2.1, relaxed.2.1, shifted.2.2, used, relaxed.2.2.2)

/-- The augmenting-path `loop` of `hungarian_max`, run with fuel (`none`
when the loop does not break within the fuel; `n + 2` passes always
suffice for the inputs the engine builds). Returns `(u, v, way, j0)` at
the break, where `p j0 = 0`. -/
def searchGo (n : Nat) (cost : Nat → Nat → Int) (p : Nat → Nat) :
    Nat → (Nat → Int) → (Nat → Int) → (Nat → Nat) → (Nat → Int) → List Nat →
    Nat → Option ((Nat → Int) × (Nat → Int) × (Nat → Nat) × Nat)
  | 0, _, _, _, _, _, _ => none
  | fuel + 1, u, v, way, minv, used, j0 =>
    let st := searchPass n cost p u v way minv used j0
    let j1 := st.2.2.2.2.2
    if p j1 = 0 then some (st.1, st.2.1, st.2.2.1, j1)
    else searchGo n cost p fuel st.1 st.2.1 st.2.2.1 st.2.2.2.1 st.2.2.2.2.1 j1

/-- The reassignment `loop` of `hungarian_max`: shift assignments along
the alternating path (`none` when the path does not reach column `0`
within the fuel — it always does when the links form a path). -/
def rewriteGo (way : Nat → Nat) : Nat → (Nat → Nat) → Nat → Option (Nat → Nat)
  | 0, _, _ => none
  | fuel + 1, p, j0 =>
    let j1 := way j0
    let p2 := updFn p j0 (p j1)
    if j1 = 0 then some p2 else rewriteGo way fuel p2 j1

/-- The outer row loop of `hungarian_max` (`for i in 1..=n`). -/
def hungarianRun (cost : Nat → Nat → Int) (n : Nat) : Option HGlobal :=
  (List.range n).foldlM
    (fun (g : HGlobal) im =>
      let i := im + 1
      let p := updFn g.p 0 i
      match searchGo n cost p (n + 2) g.u g.v g.way (fun _ => INTMAX) [] 0 with
      | none => none
      | some (u, v, way, j0) =>
        match rewriteGo way (n + 2) p j0 with
        | none => none
        | some p2 => some ⟨p2, u, v, way⟩)
    ⟨fun _ => 0, fun _ => 0, fun _ => 0, fun _ => 0⟩

/-- Maximum of a list of integers, Rust `Iterator::max().unwrap_or(0)`. -/
def listMaxD : List Int → Int
  | [] => 0
  | x :: xs => xs.foldl max x

/-- `matcher.rs` `hungarian_max`: weight maximisation via cost
minimisation; extraction writes `result[p[j]-1] = j-1` for the assigned
columns. -/
def hungarianMax (weights : List (List Int)) (n : Nat) : List Nat :=
  if n = 0 then []
  else
    let maxW := listMaxD (weights.flatMap fun r => r)
    let cost := fun i j => maxW - (weights.getD i []).getD j 0
    match hungarianRun cost n with
    | some g =>
      (List.range n).foldl
        (fun res jm =>
          let pj := g.p (jm + 1)
          if 0 < pj then res.set (pj - 1) jm else res)
        (List.replicate n 0)
    | none => List.replicate n 0

/-- The similarity matrix of `bipartite_match` (padded to square). -/
def bipartiteWeights (L R : List CstNode) : List (List Int) :=
  let size := max L.length R.length
  (List.range size).map fun i =>
    (List.range size).map fun j =>
      if i < L.length && j < R.length
          && canMatch (L.getD i default) (R.getD j default) then
        (treeSimilarity (L.getD i default) (R.getD j default) : Int)
      else 0

/-- `matcher.rs` `bipartite_match`. -/
def bipartiteMatch (L R : List CstNode) : List MatchPair :=
  if L.length = 0 || R.length = 0 then []
  else
    let size := max L.length R.length
    let weights := bipartiteWeights L R
    let assignment := hungarianMax weights size
    (List.range assignment.length).filterMap fun i =>
      let j := assignment.getD i 0
      if i < L.length && j < R.length && 0 < (weights.getD i []).getD j 0 then
        some ⟨(L.getD i default).id, (R.getD j default).id,
          ((weights.getD i []).getD j 0).toNat⟩
      else none

/-- `matcher.rs` `match_children`: dispatch on the ordering. -/
def matchChildren (lp rp : CstNode) : ListOrdering → List MatchPair
  | ListOrdering.ordered => yangMatch lp.children rp.children
  | ListOrdering.unordered => bipartiteMatch lp.children rp.children

/-- `matcher.rs` `match_trees_recursive` (fuel-based; the canonical fuel
`size l + size r + 1` always suffices since recursion descends into
children). The `HashMap` id lookups are modelled by last-wins search. -/
def matchTreesGo : Nat → CstNode → CstNode → List MatchPair
  | 0, _, _ => []
  | fuel + 1, l, r =>
    if l.kind ≠ r.kind then []
    else if l.isLeaf && r.isLeaf then
      if l.leafValue = r.leafValue then [⟨l.id, r.id, 1⟩] else []
    else if l.isLeaf ≠ r.isLeaf then []
    else
      let sim := treeSimilarity l r
      let rootPairs : List MatchPair := if 0 < sim then [⟨l.id, r.id, sim⟩] else []
      let ordering := match l, r with
        | CstNode.list _ _ o _, CstNode.list _ _ _ _ => o
        | _, _ => ListOrdering.ordered
      let childPairs := matchChildren l r ordering
      childPairs.foldl
        (fun acc pair =>
          match (l.children.reverse.find? fun c => c.id = pair.left),
              (r.children.reverse.find? fun c => c.id = pair.right) with
          | some lc, some rc => acc ++ matchTreesGo fuel lc rc
          | _, _ => acc)
        rootPairs

/-- `matcher.rs` `match_trees`. -/
def matchTrees (l r : CstNode) : List MatchPair :=
  matchTreesGo (l.size + r.size + 1) l r

/- ─────────────────────────  amalgamator.rs  ───────────────────────── -/

/-- `amalgamator.rs` `AmalgamResult`. -/
inductive AmalgamResult where
  | merged (node : CstNode)
  | conflict (base left right : CstNode)
  deriving DecidableEq, Repr

/-- A match map `base id → other id` (`HashMap` built by `collect`;
lookup takes the last binding, as insert-overwrite does). -/
abbrev PairMap := List (Nat × Nat)

/-- Last-wins lookup in a pair map. -/
def lookupLast (m : PairMap) (k : Nat) : Option Nat :=
  (m.reverse.find? fun p => p.1 = k).map (·.2)

/-- Lookup in a child match map (keys are distinct by construction). -/
def lookupAssoc (m : List (Nat × CstNode)) (k : Nat) : Option CstNode :=
  (m.reverse.find? fun p => p.1 = k).map (·.2)

/-- Rust `Iterator::max_by_key` (returns the last maximal element). -/
def maxByKeyLast (key : α → Nat) (l : List α) : Option α :=
  l.foldl
    (fun acc x =>
      match acc with
      | none => some x
      | some y => if key y ≤ key x then some x else some y)
    none

/-- `amalgamator.rs` `build_child_match_map`: id-based matches from the
whole-tree match map first, then a best-kind-similarity fallback for the
remaining base children (against the others not claimed in the first
phase). -/
def buildChildMatchMap (baseChildren otherChildren : List CstNode)
    (matchMap : PairMap) : List (Nat × CstNode) :=
  let phase1 := baseChildren.filterMap fun bc =>
    match lookupLast matchMap bc.id with
    | some oid =>
      match otherChildren.reverse.find? fun c => c.id = oid with
      | some oc => some (bc.id, oc)
      | none => none
    | none => none
  let matchedOther := phase1.map fun p => p.2.id
  let phase2 := baseChildren.filterMap fun bc =>
    if (phase1.find? fun p => p.1 = bc.id).isSome then none
    else
      let cands := otherChildren.filter fun oc =>
        !(matchedOther.contains oc.id) && oc.kind = bc.kind
      match maxByKeyLast (fun oc => treeSimilarity bc oc) cands with
      | some best => if 0 < treeSimilarity bc best then some (bc.id, best) else none
      | none => none
  phase1 ++ phase2

/-- `amalgamator.rs` `reconstruct_node`. -/
def reconstructNode (template : CstNode) (children : List CstNode) : CstNode :=
  match template with
  | CstNode.leaf .. => template
  | CstNode.constructed i k _ => CstNode.constructed i k (CstList.ofList children)
  | CstNode.list i k o _ => CstNode.list i k o (CstList.ofList children)

/-- The placeholder leaf the source constructs for delete/edit
conflicts. -/
def deletedLeaf : CstNode := CstNode.leaf 0 "deleted".data []

/-- First structurally equal unmatched child, `amalgamate_unordered`'s
`find` (returns the index). -/
def findStructIdx (children : List CstNode) (used : List Nat) (bc : CstNode) :
    Option Nat :=
  (List.range children.length).find? fun i =>
    !(used.contains i) && bc.structurallyEqual (children.getD i default)

/-- `amalgamator.rs` `amalgamate_unordered` (never conflicts): keep base
children present on both sides, accept deletions otherwise, then append
left additions and deduplicated right additions. -/
def amalgamUnordered (base left right : CstNode) : AmalgamResult :=
  let leftC := left.children
  let rightC := right.children
  let st := base.children.foldl
    (fun (st : List CstNode × List Nat × List Nat) bc =>
      match findStructIdx leftC st.2.1 bc, findStructIdx rightC st.2.2 bc with
      | some li, some ri => (st.1 ++ [bc], st.2.1 ++ [li], st.2.2 ++ [ri])
      | some li, none => (st.1, st.2.1 ++ [li], st.2.2)
      | none, some ri => (st.1, st.2.1, st.2.2 ++ [ri])
      | none, none => st)
    ([], [], [])
  let withLeft := st.1 ++ (List.range leftC.length).filterMap fun i =>
    if st.2.1.contains i then none else some (leftC.getD i default)
  let withBoth := (List.range rightC.length).foldl
    (fun res i =>
      if st.2.2.contains i then res
      else if res.any fun c => c.structurallyEqual (rightC.getD i default) then res
      else res ++ [rightC.getD i default])
    withLeft
  AmalgamResult.merged (reconstructNode base withBoth)

/-- The body of one iteration of the ordered `amalgamate_children` walk
over one base child: the contributed merged children and, when the child
conflicts, its conflict triple (`recurse` is the node amalgamation). -/
def orderedChildStep (recurse : CstNode → CstNode → CstNode → AmalgamResult)
    (blChild brChild : List (Nat × CstNode)) (bc : CstNode) :
    List CstNode × Option (CstNode × CstNode × CstNode) :=
  match lookupAssoc blChild bc.id, lookupAssoc brChild bc.id with
  | some lc, some rc =>
    match recurse bc lc rc with
    | AmalgamResult.merged node => ([node], none)
    | AmalgamResult.conflict b l r => ([lc], some (b, l, r))
  | some lc, none =>
    if bc.structurallyEqual lc then ([], none)
    else ([], some (bc, lc, deletedLeaf))
  | none, some rc =>
    if bc.structurallyEqual rc then ([], none)
    else ([], some (bc, deletedLeaf, rc))
  | none, none => ([], none)

/-- Accumulation of the ordered walk: merged children are appended and
each conflict overwrites the recorded triple. -/
def orderedAccum (recurse : CstNode → CstNode → CstNode → AmalgamResult)
    (blChild brChild : List (Nat × CstNode))
    (st : List CstNode × Option (CstNode × CstNode × CstNode)) (bc : CstNode) :
    List CstNode × Option (CstNode × CstNode × CstNode) :=
  let step := orderedChildStep recurse blChild brChild bc
  (st.1 ++ step.1,
    match step.2 with
    | some t => some t
    | none => st.2)

/-- Is the node an unordered list node (the dispatch guard of
`amalgamate_children`). -/
def isUnorderedList : CstNode → Bool
  | CstNode.list _ _ ListOrdering.unordered _ => true
  | _ => false

/-- `amalgamator.rs` `amalgamate_node` together with its ordered
`amalgamate_children` walk, fuel-based (the fuel
`base.size + left.size + right.size + 1` always suffices: each level
descends into matched children). Note that in the ordered walk every
conflict overwrites the recorded conflict triple, so the triple returned
is the one of the last conflicting base child. -/
def amalgamateNodeF : Nat → PairMap → PairMap → PairMap →
    CstNode → CstNode → CstNode → AmalgamResult
  | 0, _, _, _, base, left, right => AmalgamResult.conflict base left right
  | fuel + 1, bl, br, lr, base, left, right =>
    if base.structurallyEqual left && base.structurallyEqual right then
      AmalgamResult.merged base
    else if base.structurallyEqual right then AmalgamResult.merged left
    else if base.structurallyEqual left then AmalgamResult.merged right
    else if left.structurallyEqual right then AmalgamResult.merged left
    else
      if base.isLeaf && left.isLeaf && right.isLeaf then
        AmalgamResult.conflict base left right
      else
        if !base.isLeaf && !left.isLeaf && !right.isLeaf then
          if isUnorderedList base then amalgamUnordered base left right
          else
            let blChild := buildChildMatchMap base.children left.children bl
            let brChild := buildChildMatchMap base.children right.children br
            let st := base.children.foldl
              (orderedAccum (amalgamateNodeF fuel bl br lr) blChild brChild)
              ([], none)
            let leftAdds := left.children.filter fun lc =>
              !((blChild.map fun p => p.2.id).contains lc.id)
            let rightAdds := right.children.filter fun rc =>
              !((brChild.map fun p => p.2.id).contains rc.id)
            match st.2 with
            | some t => AmalgamResult.conflict t.1 t.2.1 t.2.2
            | none =>
              AmalgamResult.merged
                (reconstructNode base (st.1 ++ leftAdds ++ rightAdds))
        else AmalgamResult.conflict base left right

/-- `amalgamator.rs` `amalgamate`: compute the three pairwise match maps
and run the node walk. -/
def amalgamate (s : MergeScenario CstNode) : AmalgamResult :=
  let bl := (matchTrees s.base s.left).map fun p => (p.left, p.right)
  let br := (matchTrees s.base s.right).map fun p => (p.left, p.right)
  let lr := (matchTrees s.left s.right).map fun p => (p.left, p.right)
  amalgamateNodeF (s.base.size + s.left.size + s.right.size + 1) bl br lr
    s.base s.left s.right

/-- `amalgamator.rs` `amalgam_to_merge_result`. -/
def amalgamToMergeResult : AmalgamResult → MergeResult
  | AmalgamResult.merged n => MergeResult.resolved n.toSource
  | AmalgamResult.conflict b l r =>
    MergeResult.conflict b.toSource l.toSource r.toSource

/- ────────────────────────────  vsa.rs  ──────────────────────────── -/

mutual
/-- `vsa.rs` `VersionSpace` (sub-space vectors as `VSList`). -/
inductive VersionSpace where
  | atom (node : CstNode)
  | join (kind : Str) (children : VSList)
  | union (options : VSList)
  | listJoin (kind : Str) (ordering : ListOrdering)
      (leftItems rightItems baseItems : VSList)
/-- A vector of version spaces. -/
inductive VSList where
  | nil
  | cons (head : VersionSpace) (tail : VSList)
end

/-- Build a `VSList` from a `List`. -/
def VSList.ofList : List VersionSpace → VSList
  | [] => .nil
  | v :: vs => .cons v (ofList vs)

mutual
/-- `vsa.rs` `VersionSpace::enumerate_inner` (the `out` vector is
threaded; the source checks the `max` cap on entry, realised here as a
check in every arm). -/
def VersionSpace.enumInner (max : Nat) (out : List CstNode) :
    VersionSpace → List CstNode
  | VersionSpace.atom n => if max ≤ out.length then out else out ++ [n]
  | VersionSpace.join kind children =>
    if max ≤ out.length then out
    else
      let childOptions := children.enumEach max
      let combos := childOptions.foldl
        (fun combos options =>
          combos.foldl
            (fun newCombos combo =>
              options.foldl
                (fun newCombos opt =>
                  if max ≤ newCombos.length then newCombos
                  else newCombos ++ [combo ++ [opt]])
                newCombos)
            [])
        [[]]
      combos.foldl
        (fun out combo =>
          if max ≤ out.length then out
          else out ++ [CstNode.constructed 0 kind (CstList.ofList combo)])
        out
  | VersionSpace.union options =>
    if max ≤ out.length then out else options.enumUnion max out
  | VersionSpace.listJoin kind ordering leftItems rightItems baseItems =>
    if max ≤ out.length then out
    else
      let leftNodes := leftItems.enumEach max
      let rightNodes := rightItems.enumEach max
      let baseNodes := (baseItems.enumEach 1).flatMap fun l => l
      let children1 := baseNodes ++ leftNodes.filterMap (·.head?)
        ++ rightNodes.filterMap (·.head?)
      let out := out ++ [CstNode.list 0 kind ordering (CstList.ofList children1)]
      if out.length < max then
        let children2 := baseNodes ++ rightNodes.filterMap (·.head?)
          ++ leftNodes.filterMap (·.head?)
        out ++ [CstNode.list 0 kind ordering (CstList.ofList children2)]
      else out
/-- `children.iter().map(|c| c.enumerate(max))`. -/
def VSList.enumEach (max : Nat) : VSList → List (List CstNode)
  | .nil => []
  | .cons v vs => VersionSpace.enumInner max [] v :: vs.enumEach max
/-- The `Union` loop: enumerate alternatives in order into `out`. -/
def VSList.enumUnion (max : Nat) (out : List CstNode) : VSList → List CstNode
  | .nil => out
  | .cons v vs => vs.enumUnion max (VersionSpace.enumInner max out v)
end

/-- `vsa.rs` `VersionSpace::enumerate`. -/
def VersionSpace.enumerate (vs : VersionSpace) (max : Nat) : List CstNode :=
  vs.enumInner max []

/-- `vsa.rs` `build_version_space`. -/
def buildVersionSpace (s : MergeScenario CstNode) : VersionSpace :=
  if s.left.structurallyEqual s.right then VersionSpace.atom s.left
  else if s.base.isLeaf && s.left.isLeaf && s.right.isLeaf then
    VersionSpace.union (VSList.ofList
      [VersionSpace.atom s.left, VersionSpace.atom s.right, VersionSpace.atom s.base])
  else if !s.base.isLeaf && !s.left.isLeaf && !s.right.isLeaf then
    let leftC := s.left.children
    let rightC := s.right.children
    let st := s.base.children.foldl
      (fun (st : List Nat × List Nat) bc =>
        (match findStructIdx leftC st.1 bc with
          | some li => st.1 ++ [li]
          | none => st.1,
         match findStructIdx rightC st.2 bc with
          | some ri => st.2 ++ [ri]
          | none => st.2))
      ([], [])
    let baseItems := s.base.children.map VersionSpace.atom
    let leftOnly := (List.range leftC.length).filterMap fun i =>
      if st.1.contains i then none else some (VersionSpace.atom (leftC.getD i default))
    let rightOnly := (List.range rightC.length).filterMap fun i =>
      if st.2.contains i then none else some (VersionSpace.atom (rightC.getD i default))
    let ordering := match s.base with
      | CstNode.list _ _ o _ => o
      | _ => ListOrdering.ordered
    VersionSpace.listJoin s.base.kind ordering (VSList.ofList leftOnly)
      (VSList.ofList rightOnly) (VSList.ofList baseItems)
  else
    VersionSpace.union (VSList.ofList
      [VersionSpace.atom s.left, VersionSpace.atom s.right, VersionSpace.atom s.base])

/-- Deduplication by key keeping first occurrences (the `seen`-vector
`retain` of `rank_candidates` and the `HashSet` `retain`s). -/
def dedupByKeyFirst [DecidableEq β] (key : α → β) : List α → List α
  | [] => []
  | x :: xs => x :: (dedupByKeyFirst key xs).filter fun y => key y ≠ key x

/-- `vsa.rs` `rank_candidates`: score, sort descending (stable),
deduplicate by source text, tag the head `Medium` and the rest `Low`. -/
def rankCandidates (cands : List CstNode) (s : MergeScenario CstNode) :
    List ResolutionCandidate :=
  let scored := cands.map fun c =>
    let leftSim : Rat := treeSimilarity c s.left
    let rightSim : Rat := treeSimilarity c s.right
    let baseSim : Rat := treeSimilarity c s.base
    (c, (leftSim + rightSim - baseSim * (1 / 2)) / ((max c.size 1 : Nat) : Rat))
  let sorted := insSortBy (fun y x => x.2 < y.2) scored
  let dd := dedupByKeyFirst (fun p => p.1.toSource) sorted
  dd.mapIdx fun i p =>
    ⟨p.1.toSource, if i = 0 then Confidence.medium else Confidence.low,
      ResolutionStrategy.versionSpaceAlgebra⟩

/-- `vsa.rs` `resolve_via_vsa`. -/
def resolveViaVsa (s : MergeScenario CstNode) (maxCandidates : Nat) :
    List ResolutionCandidate :=
  rankCandidates ((buildVersionSpace s).enumerate maxCandidates) s

/- ──────────────────────────  resolver.rs  ────────────────────────── -/

/-- The external parser (`parser.rs` `parse_to_cst` drives the external
tree-sitter engine); the resolver is parametric in it. -/
abbrev Parser := Str → Language → Except ParseError CstNode

/-- `resolver.rs` `ResolverConfig`. -/
structure ResolverConfig where
  autoAcceptThreshold : Confidence
  maxVsaCandidates : Nat
  searchConfig : SearchConfig
  language : Option Language

/-- `ResolverConfig::default`. -/
def ResolverConfig.default : ResolverConfig :=
  ⟨Confidence.medium, 100, SearchConfig.default, none⟩

/-- `resolver.rs` `ResolverOutput`. -/
structure ResolverOutput where
  resolution : Option ResolutionCandidate
  candidates : List ResolutionCandidate
  strategiesTried : List ResolutionStrategy
  diff3Result : MergeResult
  deriving DecidableEq, Repr

/-- `resolver.rs` `Resolver::try_structured_merge`. -/
def tryStructuredMerge (parse : Parser) (base left right : Str)
    (lang : Language) : Except ParseError (Option MergeResult) := do
  let bt ← parse base lang
  let lt ← parse left lang
  let rt ← parse right lang
  let result := amalgamate ⟨bt, lt, rt⟩
  match result with
  | AmalgamResult.merged _ => pure (some (amalgamToMergeResult result))
  | AmalgamResult.conflict .. => pure none

/-- `resolver.rs` `Resolver::try_vsa_resolve`. -/
def tryVsaResolve (parse : Parser) (base left right : Str) (lang : Language)
    (maxCandidates : Nat) : Except ParseError (List ResolutionCandidate) := do
  let bt ← parse base lang
  let lt ← parse left lang
  let rt ← parse right lang
  pure (resolveViaVsa ⟨bt, lt, rt⟩ maxCandidates)

/-- Strategies 4 and the final ranking of `resolve_conflict`: run the
search, sort all candidates by confidence (stable, descending),
deduplicate by content, and accept the head iff it meets the
threshold. -/
def conflictStage4 (cfg : ResolverConfig) (s : MergeScenario Str)
    (diff3Result : MergeResult) (candidates : List ResolutionCandidate)
    (tried : List ResolutionStrategy) : ResolverOutput :=
  let tried := tried ++ [ResolutionStrategy.searchBased]
  let candidates := candidates ++ searchResolve s cfg.searchConfig
  let candidates :=
    insSortBy (fun y x => x.confidence.rank < y.confidence.rank) candidates
  let candidates := dedupByKeyFirst (fun c => c.content) candidates
  let resolution :=
    match candidates.head? with
    | some c => if c.confidence.ge cfg.autoAcceptThreshold then some c else none
    | none => none
  ⟨resolution, candidates, tried, diff3Result⟩

/-- Strategy 3 (VSA) of `resolve_conflict`: only with a configured
language; a `ParseError` contributes nothing. -/
def conflictStage3 (cfg : ResolverConfig) (parse : Parser)
    (s : MergeScenario Str) (diff3Result : MergeResult)
    (candidates : List ResolutionCandidate) (tried : List ResolutionStrategy) :
    ResolverOutput :=
  match cfg.language with
  | none => conflictStage4 cfg s diff3Result candidates tried
  | some lang =>
    let tried := tried ++ [ResolutionStrategy.versionSpaceAlgebra]
    match tryVsaResolve parse s.base s.left s.right lang cfg.maxVsaCandidates with
    | Except.ok vsaCands =>
      conflictStage4 cfg s diff3Result (candidates ++ vsaCands) tried
    | Except.error _ => conflictStage4 cfg s diff3Result candidates tried

/-- Strategy 2 (structured merge) of `resolve_conflict`: only with a
configured language; a clean merge at or above the threshold returns
early; a structured conflict or a `ParseError` falls through. -/
def conflictStage2 (cfg : ResolverConfig) (parse : Parser)
    (s : MergeScenario Str) (diff3Result : MergeResult)
    (candidates : List ResolutionCandidate) (tried : List ResolutionStrategy) :
    ResolverOutput :=
  match cfg.language with
  | none => conflictStage3 cfg parse s diff3Result candidates tried
  | some lang =>
    let tried := tried ++ [ResolutionStrategy.structuredMerge]
    match tryStructuredMerge parse s.base s.left s.right lang with
    | Except.ok (some (MergeResult.resolved content)) =>
      let resolution : ResolutionCandidate :=
        ⟨content, Confidence.high, ResolutionStrategy.structuredMerge⟩
      if resolution.confidence.ge cfg.autoAcceptThreshold then
        ⟨some resolution, [resolution], tried, diff3Result⟩
      else
        conflictStage3 cfg parse s diff3Result (candidates ++ [resolution]) tried
    | _ => conflictStage3 cfg parse s diff3Result candidates tried

/-- `resolver.rs` `Resolver::resolve_conflict`. -/
def resolveConflict (cfg : ResolverConfig) (parse : Parser)
    (base left right : Str) : ResolverOutput :=
  let s : MergeScenario Str := ⟨base, left, right⟩
  let diff3Result := diff3Merge s
  let tried := [ResolutionStrategy.patternRule]
  match tryResolve s with
  | some resolution =>
    if resolution.confidence.ge cfg.autoAcceptThreshold then
      ⟨some resolution, [resolution], tried, diff3Result⟩
    else conflictStage2 cfg parse s diff3Result [resolution] tried
  | none => conflictStage2 cfg parse s diff3Result [] tried

/-- `resolver.rs` `FileResolverOutput`. -/
structure FileResolverOutput where
  mergedContent : Str
  conflicts : List ResolverOutput
  allResolved : Bool
  deriving DecidableEq, Repr

/-- `resolver.rs` `Resolver::resolve_file`. -/
def resolveFile (cfg : ResolverConfig) (parse : Parser)
    (base left right : Str) : FileResolverOutput :=
  let s : MergeScenario Str := ⟨base, left, right⟩
  match diff3Merge s with
  | MergeResult.resolved content => ⟨content, [], true⟩
  | MergeResult.conflict .. =>
    let st := (diff3Hunks s).foldl
      (fun (st : List Str × List ResolverOutput × Bool) hunk =>
        match hunk with
        | Diff3Hunk.stable lines | Diff3Hunk.leftChanged lines
        | Diff3Hunk.rightChanged lines => (st.1 ++ lines, st.2)
        | Diff3Hunk.conflict b l r =>
          let out := resolveConflict cfg parse (joinNl b) (joinNl l) (joinNl r)
          match out.resolution with
          | some resolution =>
            (st.1 ++ rustLines resolution.content, st.2.1 ++ [out], st.2.2)
          | none =>
            (st.1 ++ ["<<<<<<< LEFT".data] ++ l ++ ["||||||| BASE".data] ++ b
              ++ ["=======".data] ++ r ++ [">>>>>>> RIGHT".data],
              st.2.1 ++ [out], false))
      ([], [], true)
    ⟨joinNl st.1, st.2.1, st.2.2⟩

/- ──────────────  auxiliary definitions for the theorems  ────────────── -/

/-- The text with a final newline appended when non-empty and missing
(the shape `diff3_merge` actually produces for equal inputs). -/
def ensureNl (s : Str) : Str :=
  if s = [] then [] else if s.getLast? = some '\n' then s else s ++ ['\n']

/-- Number of leaves of a subtree (`collect_leaves().len()`). -/
def leafCount (n : CstNode) : Nat := n.collectLeaves.length

/-- Is an `Except` an error. -/
def isErrE : Except ε α → Bool
  | Except.error _ => true
  | Except.ok _ => false

/-- Last `some` of a list of options (how successive overwrites of a
mutable slot fold up). -/
def lastSomeD (l : List (Option α)) : Option α :=
  l.foldl
    (fun acc o =>
      match o with
      | some t => some t
      | none => acc)
    none

/-- A match list is one-to-one on each side: no node id occurs twice on
the left of a pair nor twice on the right. -/
def pairsOneToOne (ps : List MatchPair) : Prop :=
  (ps.map MatchPair.left).Nodup ∧ (ps.map MatchPair.right).Nodup

/-- The ids of a child sequence. -/
def nodeIds (l : List CstNode) : List Nat := l.map CstNode.id

/-- Does the modelled Hungarian run of `bipartite_match` complete (its
augmenting-path loops all break within their fuel — they always do on
the engine's inputs). -/
def bipartiteRunOk (L R : List CstNode) : Bool :=
  let size := max L.length R.length
  let weights := bipartiteWeights L R
  let maxW := listMaxD (weights.flatMap fun r => r)
  (hungarianRun (fun i j => maxW - (weights.getD i []).getD j 0) size).isSome

/-- The lines a non-conflict hunk contributes to the merged output. -/
def hunkLines : Diff3Hunk → List Str
  | Diff3Hunk.stable l => l
  | Diff3Hunk.leftChanged l => l
  | Diff3Hunk.rightChanged l => l
  | Diff3Hunk.conflict _ _ _ => []

/-- The multiset of row assignments held by columns `1..n` (the values
`p[1..=n]` of `hungarian_max`, with multiplicity). -/
def colVals (n : Nat) (p : Nat → Nat) : Multiset Nat :=
  ((List.range n).map fun jm => p (jm + 1) : List Nat)

/-- A concrete left child sequence for exercising the matchers. -/
def wML : List CstNode :=
  [CstNode.leaf 1 "k".data "x".data, CstNode.leaf 2 "k".data "y".data]

/-- A concrete right child sequence for exercising the matchers. -/
def wMR : List CstNode :=
  [CstNode.leaf 3 "k".data "x".data, CstNode.leaf 4 "k".data "y".data]

/-- `rank_candidates` as the spec words it: score
`(sim(c,left) + sim(c,right) − 0.5·sim(c,base)) / max(1, size c)`, sort
descending (stable), deduplicate by source text keeping the first
occurrence, give the surviving head `Medium` and the rest `Low`, all
tagged `VersionSpaceAlgebra`. -/
def rankCandidatesSpec (cands : List CstNode) (s : MergeScenario CstNode) :
    List ResolutionCandidate :=
  let score : CstNode → Rat := fun c =>
    ((treeSimilarity c s.left : Rat) + (treeSimilarity c s.right : Rat)
      - (1 / 2) * (treeSimilarity c s.base : Rat)) / ((max 1 c.size : Nat) : Rat)
  let sorted := insSortBy (fun y x => score x < score y) cands
  match dedupByKeyFirst CstNode.toSource sorted with
  | [] => []
  | top :: rest =>
    ⟨top.toSource, Confidence.medium, ResolutionStrategy.versionSpaceAlgebra⟩ ::
      rest.map fun c =>
        ⟨c.toSource, Confidence.low, ResolutionStrategy.versionSpaceAlgebra⟩

mutual
/-- The source slices of the childless nodes of a modelled tree-sitter
tree, in pre-order. -/
def TSNode.leafSlices (source : Str) : TSNode → List Str
  | TSNode.mk _ start stop TSList.nil => [(source.drop start).take (stop - start)]
  | TSNode.mk _ _ _ (TSList.cons c cs) =>
    TSList.leafSlicesL source (TSList.cons c cs)
/-- Slices of a child vector. -/
def TSList.leafSlicesL (source : Str) : TSList → List Str
  | TSList.nil => []
  | TSList.cons c cs => c.leafSlices source ++ TSList.leafSlicesL source cs
end

/-- The source text of the round-trip failing input. -/
def jsSource : Str := "let x".data

/-- The tree-sitter-javascript parse tree of `"let x"` (spans in bytes):
`program` and `lexical_declaration` cover `[0,5)`; the `let` keyword
covers `[0,3)`; `variable_declarator`/`identifier` cover `[4,5)`. The
space at byte 3 belongs to no node, as tree-sitter never represents
inter-token whitespace. -/
def jsTree : TSNode :=
  TSNode.mk "program".data 0 5 (TSList.cons
    (TSNode.mk "lexical_declaration".data 0 5 (TSList.cons
      (TSNode.mk "let".data 0 3 TSList.nil)
      (TSList.cons
        (TSNode.mk "variable_declarator".data 4 5 (TSList.cons
          (TSNode.mk "identifier".data 4 5 TSList.nil) TSList.nil))
        TSList.nil)))
    TSList.nil)

/-- A two-field constructed node (the C5 example family). -/
def mkPairNode (i j k : Nat) (name lit : Str) : CstNode :=
  CstNode.constructed i "s".data (CstList.ofList
    [CstNode.leaf j "id".data name, CstNode.leaf k "lit".data lit])

/-- First base child of the two-conflict amalgamation example. -/
def exB1 : CstNode := mkPairNode 1 2 3 "x".data "1".data
/-- Second base child of the example. -/
def exB2 : CstNode := mkPairNode 4 5 6 "y".data "3".data
/-- First left child (edits `exB1`). -/
def exL1 : CstNode := mkPairNode 7 8 9 "x".data "2".data
/-- Second left child (edits `exB2`). -/
def exL2 : CstNode := mkPairNode 10 11 12 "y".data "4".data
/-- Base root: an ordered block with the two children. -/
def exBase : CstNode :=
  CstNode.list 13 "block".data ListOrdering.ordered (CstList.ofList [exB1, exB2])
/-- Left root: both children edited. -/
def exLeft : CstNode :=
  CstNode.list 14 "block".data ListOrdering.ordered (CstList.ofList [exL1, exL2])
/-- Right root: both children deleted. -/
def exRight : CstNode :=
  CstNode.list 15 "block".data ListOrdering.ordered CstList.nil

/-- The line list the import-union rule builds (trim, drop empties,
deduplicate keeping first, sort ascending). -/
def importUnionList (s : MergeScenario Str) : List Str :=
  insSortBy (fun y x => !(lexLe x y))
    (dedupKeepFirst (((rustLines s.left ++ rustLines s.right).map trimStr).filter (· ≠ [])))

/- ════════════════════════════  THEOREMS  ════════════════════════════ -/

/- ──────────────────────────────  C1  ────────────────────────────── -/

theorem buildHunksGo_no_conflict (f : Nat) :
    ∀ (l r : List (LineOp × List Str)) (h : Diff3Hunk),
      h ∈ buildHunksGo f l r → h.isConflict = false := by
  induction f with
  | zero => intro l r h hh; simp [buildHunksGo] at hh
  | succ f ih =>
    intro l r h hh
    rcases l with _ | ⟨⟨op1, v1⟩, ls⟩ <;> rcases r with _ | ⟨⟨op2, v2⟩, rs⟩ <;>
      [skip; cases op2; cases op1; cases op1 <;> cases op2] <;>
      simp only [buildHunksGo, List.mem_cons, List.not_mem_nil] at hh <;>
      first
      | exact ih _ _ _ hh
      | (rcases hh with rfl | hh
         · rfl
         · exact ih _ _ _ hh)

theorem coalStepRev_no_conflict (racc : List Diff3Hunk) (h : Diff3Hunk)
    (hr : ∀ x ∈ racc, x.isConflict = false) (hh : h.isConflict = false) :
    ∀ x ∈ coalStepRev racc h, x.isConflict = false := by
  rcases racc with _ | ⟨hd, tl⟩
  · cases h <;> simp_all [coalStepRev, Diff3Hunk.isConflict]
  · cases hd <;> cases h <;>
      simp_all [coalStepRev, Diff3Hunk.isConflict, List.forall_mem_cons]

theorem coalesceHunks_no_conflict (hs : List Diff3Hunk)
    (hall : ∀ h ∈ hs, h.isConflict = false) :
    ∀ h ∈ coalesceHunks hs, h.isConflict = false := by
  have aux : ∀ (hs racc : List Diff3Hunk),
      (∀ h ∈ hs, h.isConflict = false) → (∀ h ∈ racc, h.isConflict = false) →
      ∀ h ∈ hs.foldl coalStepRev racc, h.isConflict = false := by
    intro hs
    induction hs with
    | nil => intro racc _ hr h hh; exact hr h hh
    | cons hd tl ihtl =>
      intro racc hall hr h hh
      exact ihtl _ (fun x hx => hall x (List.mem_cons_of_mem _ hx))
        (coalStepRev_no_conflict racc hd hr (hall hd (List.mem_cons_self _ _))) h hh
  intro h hh
  rw [coalesceHunks, List.mem_reverse] at hh
  exact aux hs [] hall (by simp) h hh

theorem diff3Hunks_no_conflict (s : MergeScenario Str) :
    ∀ h ∈ diff3Hunks s, h.isConflict = false := by
  intro h hh
  rw [diff3Hunks] at hh
  exact coalesceHunks_no_conflict _ (fun x hx => buildHunksGo_no_conflict _ _ _ x hx) h hh

theorem mergeFold_no_conflict (hs : List Diff3Hunk) (acc : MergeAcc)
    (hall : ∀ h ∈ hs, h.isConflict = false) (hacc : acc.hasConflict = false) :
    (hs.foldl mergeStep acc).hasConflict = false := by
  induction hs generalizing acc with
  | nil => exact hacc
  | cons hd tl ih =>
    have hhd := hall hd (List.mem_cons_self _ _)
    refine ih _ (fun x hx => hall x (List.mem_cons_of_mem _ hx)) ?_
    cases hd <;> simp_all [mergeStep, Diff3Hunk.isConflict]

theorem diff3Merge_isResolved (s : MergeScenario Str) :
    (diff3Merge s).isResolved = true := by
  rw [diff3Merge]
  have := mergeFold_no_conflict (diff3Hunks s) ⟨false, [], [], [], []⟩
    (diff3Hunks_no_conflict s) rfl
  simp only [this, if_false, Bool.false_eq_true, MergeResult.isResolved]

/-- C1: `build_hunks` has no branch constructing a `Conflict` hunk, so
for every input triple `diff3_hunks` contains no conflict hunk,
`diff3_merge` always returns `Resolved`, `extract_conflicts` is always
empty, and `resolve_file` always reports `all_resolved = true` with an
empty conflict list. -/
theorem diff3_pipeline_never_conflicts (s : MergeScenario Str)
    (cfg : ResolverConfig) (parse : Parser) :
    (∀ h ∈ diff3Hunks s, h.isConflict = false) ∧
    (diff3Merge s).isResolved = true ∧
    extractConflicts s = [] ∧
    (resolveFile cfg parse s.base s.left s.right).allResolved = true ∧
    (resolveFile cfg parse s.base s.left s.right).conflicts = [] := by
  obtain ⟨b0, l0, r0⟩ := s
  have hh := diff3Hunks_no_conflict ⟨b0, l0, r0⟩
  have hres := diff3Merge_isResolved ⟨b0, l0, r0⟩
  refine ⟨hh, hres, ?_, ?_⟩
  · rw [extractConflicts, List.filterMap_eq_nil_iff]
    intro h hmem
    have := hh h hmem
    cases h <;> simp_all [Diff3Hunk.isConflict]
  · have hcase : ∃ content, diff3Merge ⟨b0, l0, r0⟩ = MergeResult.resolved content := by
      rcases hd : diff3Merge ⟨b0, l0, r0⟩ with c | ⟨cb, cl, cr⟩
      · exact ⟨c, rfl⟩
      · rw [hd] at hres
        simp [MergeResult.isResolved] at hres
    obtain ⟨content, hcase⟩ := hcase
    constructor <;> simp [resolveFile, hcase]

/- ──────────────────────────────  C2  ────────────────────────────── -/

/-- C2 counterexample: with base `"x"`, left `"l\nx"` and right `"r\nx"`
both sides insert different content at base position 0 (both op streams
start with an `Insert`), yet `diff3_hunks` yields a `LeftChanged` and a
`RightChanged` hunk and no `Conflict` hunk — refuting the claim that this
situation produces a `Conflict` hunk. -/
theorem both_insert_no_conflict_hunk :
    (extractLineOps (lineDiff (splitKeep "x".data) (splitKeep "l\nx".data))).head?
        = some (LineOp.ins, ["l".data]) ∧
    (extractLineOps (lineDiff (splitKeep "x".data) (splitKeep "r\nx".data))).head?
        = some (LineOp.ins, ["r".data]) ∧
    ("l".data : Str) ≠ "r".data ∧
    diff3Hunks ⟨"x".data, "l\nx".data, "r\nx".data⟩ =
      [Diff3Hunk.leftChanged ["l".data], Diff3Hunk.rightChanged ["r".data],
        Diff3Hunk.stable ["x".data]] ∧
    (diff3Hunks ⟨"x".data, "l\nx".data, "r\nx".data⟩).all
      (fun h => !h.isConflict) = true := by
  decide

/-- C2 (amended): when both op streams begin with an `Insert` at the same
base position, `build_hunks` first emits a `LeftChanged` hunk with the
left insertion and then a `RightChanged` hunk with the right insertion —
never a `Conflict` hunk. -/
theorem both_insert_left_then_right (lv rv : List Str)
    (ls rs : List (LineOp × List Str)) (f : Nat)
    (hls : (ls.head?.map Prod.fst) ≠ some LineOp.ins) :
    buildHunksGo (f + 2) ((LineOp.ins, lv) :: ls) ((LineOp.ins, rv) :: rs) =
      Diff3Hunk.leftChanged lv :: Diff3Hunk.rightChanged rv ::
        buildHunksGo f ls rs := by
  have step1 : buildHunksGo (f + 2) ((LineOp.ins, lv) :: ls)
      ((LineOp.ins, rv) :: rs) =
      Diff3Hunk.leftChanged lv :: buildHunksGo (f + 1) ls ((LineOp.ins, rv) :: rs) := by
    simp [buildHunksGo]
  rw [step1]
  rcases ls with _ | ⟨⟨op, v⟩, ls2⟩
  · simp [buildHunksGo]
  · cases op
    · simp [buildHunksGo]
    · simp [buildHunksGo]
    · simp at hls

/-- Witness for the amended C2 theorem at a concrete op configuration. -/
theorem both_insert_left_then_right_witness :
    buildHunksGo 3 [(LineOp.ins, ["l".data]), (LineOp.keep, ["x".data])]
        [(LineOp.ins, ["r".data]), (LineOp.keep, ["x".data])] =
      Diff3Hunk.leftChanged ["l".data] :: Diff3Hunk.rightChanged ["r".data] ::
        buildHunksGo 1 [(LineOp.keep, ["x".data])] [(LineOp.keep, ["x".data])] :=
  both_insert_left_then_right ["l".data] ["r".data]
    [(LineOp.keep, ["x".data])] [(LineOp.keep, ["x".data])] 1 (by decide)

/- ──────────────────────────────  C3  ────────────────────────────── -/

theorem lineDiffF_self (f : Nat) :
    ∀ l : List Str, l.length < f → lineDiffF f l l = l.map Change.equal := by
  induction f with
  | zero => intro l h; omega
  | succ f ih =>
    intro l h
    rcases l with _ | ⟨a, as⟩
    · simp [lineDiffF]
    · have step : lineDiffF (f + 1) (a :: as) (a :: as) =
          Change.equal a :: lineDiffF f as as := by
        simp [lineDiffF]
      rw [step, ih as (by simpa using Nat.lt_of_succ_lt_succ h)]
      simp

theorem lineDiff_self (l : List Str) : lineDiff l l = l.map Change.equal := by
  rw [lineDiff]; exact lineDiffF_self _ l (by omega)

theorem extractOps_all_equal (l : List Str) :
    extractOpsGo [] (l.map Change.equal) =
      l.map fun s => (LineOp.keep, [trimNl s]) := by
  induction l with
  | nil => rfl
  | cons a as ih => simp [extractOpsGo, ih]

theorem buildHunksGo_all_keep (l : List Str) :
    ∀ f : Nat, l.length < f →
      buildHunksGo f (l.map fun s => (LineOp.keep, [trimNl s]))
          (l.map fun s => (LineOp.keep, [trimNl s])) =
        l.map fun s => Diff3Hunk.stable [trimNl s] := by
  induction l with
  | nil =>
    intro f hf
    rcases f with _ | f
    · omega
    · simp [buildHunksGo]
  | cons a as ih =>
    intro f hf
    rcases f with _ | f
    · omega
    · simp only [List.map_cons, buildHunksGo]
      rw [ih f (by simpa using Nat.lt_of_succ_lt_succ hf)]

theorem flat_cons (a : Str) (l : List Str) : flat (a :: l) = a ++ flat l := rfl

theorem flat_append (l1 l2 : List Str) : flat (l1 ++ l2) = flat l1 ++ flat l2 := by
  induction l1 with
  | nil => rfl
  | cons a as ih => simp [flat_cons, ih, List.append_assoc]

theorem coalStepRev_flat (racc : List Diff3Hunk) (h : Diff3Hunk) :
    (coalStepRev racc h).reverse.flatMap hunkLines =
      racc.reverse.flatMap hunkLines ++ hunkLines h := by
  rcases racc with _ | ⟨hd, tl⟩
  · cases h <;> simp [coalStepRev, hunkLines]
  · cases hd <;> cases h <;>
      simp [coalStepRev, hunkLines, List.append_assoc]

theorem coalesce_flat (hs : List Diff3Hunk) :
    (coalesceHunks hs).flatMap hunkLines = hs.flatMap hunkLines := by
  have aux : ∀ (hs racc : List Diff3Hunk),
      (hs.foldl coalStepRev racc).reverse.flatMap hunkLines =
        racc.reverse.flatMap hunkLines ++ hs.flatMap hunkLines := by
    intro hs
    induction hs with
    | nil => intro racc; simp
    | cons hd tl ih =>
      intro racc
      simp only [List.foldl_cons, List.flatMap_cons]
      rw [ih, coalStepRev_flat, List.append_assoc]
  have := aux hs []
  simpa [coalesceHunks] using this

theorem mergeFold_merged (hs : List Diff3Hunk) (acc : MergeAcc)
    (hall : ∀ h ∈ hs, h.isConflict = false) :
    (hs.foldl mergeStep acc).merged =
      acc.merged ++ flat ((hs.flatMap hunkLines).map (· ++ ['\n'])) := by
  induction hs generalizing acc with
  | nil => simp [flat]
  | cons hd tl ih =>
    have hhd := hall hd (List.mem_cons_self _ _)
    rw [List.foldl_cons, ih _ (fun x hx => hall x (List.mem_cons_of_mem _ hx))]
    cases hd <;>
      simp_all [mergeStep, hunkLines, Diff3Hunk.isConflict, flat_append,
        List.append_assoc]

theorem trimNl_cons_of_ne (c : Char) (s : Str) (hc : c ≠ '\n') :
    trimNl (c :: s) = c :: trimNl s := by
  rw [trimNl]
  rcases h : trimNl s with _ | ⟨d, ds⟩ <;> simp [h, hc]

theorem splitKeep_eq_nil_iff (s : Str) : splitKeep s = [] ↔ s = [] := by
  constructor
  · intro h
    rcases s with _ | ⟨c, rest⟩
    · rfl
    · rw [splitKeep] at h
      by_cases hc : c = '\n'
      · simp [hc] at h
      · rcases h2 : splitKeep rest with _ | ⟨s1, ss⟩ <;> simp [hc, h2] at h
  · intro h; rw [h]; rfl

theorem ensureNl_cons_of_ne_nil (c : Char) (rest : Str) (hr : rest ≠ []) :
    ensureNl (c :: rest) = c :: ensureNl rest := by
  rcases rest with _ | ⟨d, ds⟩
  · exact absurd rfl hr
  · rw [ensureNl, ensureNl]
    simp only [List.cons_ne_nil, if_false]
    rw [List.getLast?_cons_cons]
    by_cases h : (d :: ds).getLast? = some '\n' <;> simp [h]

theorem flat_split_trim (x : Str) :
    flat ((splitKeep x).map fun s => trimNl s ++ ['\n']) = ensureNl x := by
  induction x with
  | nil => rfl
  | cons c rest ih =>
    by_cases hc : c = '\n'
    · subst hc
      have hsk : splitKeep ('\n' :: rest) = ['\n'] :: splitKeep rest := by
        simp [splitKeep]
      rw [hsk]
      simp only [List.map_cons, flat_cons]
      have htn : trimNl ['\n'] = [] := by decide
      rw [htn, ih]
      rcases hrest : rest with _ | ⟨d, ds⟩
      · rfl
      · rw [← hrest, ensureNl_cons_of_ne_nil _ _ (by rw [hrest]; simp)]
        rfl
    · rw [splitKeep]
      simp only [if_neg hc]
      rcases hsk : splitKeep rest with _ | ⟨s1, ss⟩
      · have : rest = [] := (splitKeep_eq_nil_iff rest).mp hsk
        subst this
        simp [trimNl, hc, flat, ensureNl]
      · have hr : rest ≠ [] := by
          intro h; subst h; simp [splitKeep] at hsk
        rw [List.map_cons, flat_cons, trimNl_cons_of_ne c s1 hc,
          ensureNl_cons_of_ne_nil c rest hr, ← ih, hsk]
        simp [flat_cons, List.append_assoc]

theorem diff3Merge_self (x : Str) :
    diff3Merge ⟨x, x, x⟩ = MergeResult.resolved (ensureNl x) := by
  have hops : extractLineOps (lineDiff (splitKeep x) (splitKeep x)) =
      (splitKeep x).map fun s => (LineOp.keep, [trimNl s]) := by
    rw [lineDiff_self, extractLineOps, extractOps_all_equal]
  have hhunks : diff3Hunks ⟨x, x, x⟩ =
      coalesceHunks ((splitKeep x).map fun s => Diff3Hunk.stable [trimNl s]) := by
    rw [diff3Hunks]
    simp only [hops, buildHunks]
    rw [buildHunksGo_all_keep _ _ (by simp; omega)]
  have hnc : ∀ h ∈ diff3Hunks ⟨x, x, x⟩, h.isConflict = false :=
    diff3Hunks_no_conflict _
  rw [diff3Merge]
  have hcf := mergeFold_no_conflict (diff3Hunks ⟨x, x, x⟩) ⟨false, [], [], [], []⟩ hnc rfl
  simp only [hcf, Bool.false_eq_true, if_false]
  congr 1
  rw [mergeFold_merged _ _ hnc, hhunks, coalesce_flat]
  have : ((splitKeep x).map fun s => Diff3Hunk.stable [trimNl s]).flatMap hunkLines =
      (splitKeep x).map trimNl := by
    induction splitKeep x with
    | nil => rfl
    | cons a as ih => simp_all [hunkLines]
  rw [this]
  simp only [List.nil_append, List.map_map]
  exact flat_split_trim x

/-- C3 (amended): `resolve_file(x, x, x)` merges cleanly for every `x`,
but its `merged_content` is `x` with a trailing newline appended whenever
`x` is non-empty and does not already end in one (byte-identity holds
exactly for the empty string and newline-terminated strings). -/
theorem resolveFile_idempotent_upto_newline (x : Str) (cfg : ResolverConfig)
    (parse : Parser) :
    (resolveFile cfg parse x x x).mergedContent = ensureNl x ∧
    (resolveFile cfg parse x x x).allResolved = true := by
  have h := diff3Merge_self x
  constructor <;> simp [resolveFile, h]

/-- C3 counterexample: `resolve_file("a", "a", "a")` returns
`"a\n"`, not `"a"` — idempotence fails byte-for-byte on inputs without a
trailing newline. -/
theorem resolveFile_not_idempotent_on_a :
    (resolveFile ResolverConfig.default (fun _ _ => Except.error ParseError.parseFailed)
        "a".data "a".data "a".data).mergedContent = "a\n".data ∧
    (resolveFile ResolverConfig.default (fun _ _ => Except.error ParseError.parseFailed)
        "a".data "a".data "a".data).mergedContent ≠ "a".data := by
  constructor <;> decide

/- ──────────────────────────────  C9  ────────────────────────────── -/

theorem lcsLenF_le [DecidableEq α] (f : Nat) :
    ∀ a b : List α, lcsLenF f a b ≤ min a.length b.length := by
  induction f with
  | zero => intro a b; simp [lcsLenF]
  | succ f ih =>
    intro a b
    rcases a with _ | ⟨x, xs⟩
    · simp [lcsLenF]
    · rcases b with _ | ⟨y, ys⟩
      · simp [lcsLenF]
      · by_cases hxy : x = y
        · have step : lcsLenF (f + 1) (x :: xs) (y :: ys) = lcsLenF f xs ys + 1 := by
            simp [lcsLenF, hxy]
          have := ih xs ys
          rw [step]
          simp only [List.length_cons]
          omega
        · have step : lcsLenF (f + 1) (x :: xs) (y :: ys) =
              max (lcsLenF f xs (y :: ys)) (lcsLenF f (x :: xs) ys) := by
            simp [lcsLenF, hxy]
          have h1 := ih xs (y :: ys)
          have h2 := ih (x :: xs) ys
          rw [step]
          simp only [List.length_cons] at h1 h2 ⊢
          omega

/-- C9: tree similarity is bounded below by `0` and above by the smaller
leaf count of the two subtrees. -/
theorem tree_similarity_bounds (a b : CstNode) :
    0 ≤ treeSimilarity a b ∧
    treeSimilarity a b ≤ min (leafCount a) (leafCount b) := by
  refine ⟨Nat.zero_le _, ?_⟩
  rcases a with ⟨i1, k1, v1⟩ | ⟨i1, k1, c1⟩ | ⟨i1, k1, o1, c1⟩ <;>
    rcases b with ⟨i2, k2, v2⟩ | ⟨i2, k2, c2⟩ | ⟨i2, k2, o2, c2⟩ <;>
    simp only [treeSimilarity, leafCount] <;>
    split_ifs <;>
    first
    | exact Nat.zero_le _
    | exact lcsLenF_le _ _ _
    | simp [CstNode.collectLeaves]

/- ──────────────────────────────  C4  ────────────────────────────── -/

theorem ofList_collectLeavesL (l : List CstNode) :
    (CstList.ofList l).collectLeavesL = l.flatMap CstNode.collectLeaves := by
  induction l with
  | nil => rfl
  | cons c cs ih => simp [CstList.ofList, CstList.collectLeavesL, ih]

theorem tsNodeToCst_collectLeaves :
    ∀ (t : TSNode) (source : Str) (next : Nat),
      (tsNodeToCst source next t).1.collectLeaves = TSNode.leafSlices source t := by
  refine @TSNode.rec
    (fun t => ∀ (source : Str) (next : Nat),
      (tsNodeToCst source next t).1.collectLeaves = TSNode.leafSlices source t)
    (fun ts => ∀ (source : Str) (next : Nat),
      (tsListToCst source next ts).1.flatMap CstNode.collectLeaves =
        TSList.leafSlicesL source ts)
    ?_ ?_ ?_
  · intro kind start stop children ih source next
    rcases children with _ | ⟨c, cs⟩
    · simp [tsNodeToCst, CstNode.collectLeaves, TSNode.leafSlices]
    · rw [tsNodeToCst]
      by_cases hl : (isListNode kind
          || decide (3 < (tsListToCst source (next + 1) (TSList.cons c cs)).1.length)) = true
      · simp only [hl, if_true, CstNode.collectLeaves, ofList_collectLeavesL]
        rw [ih source (next + 1)]
        rfl
      · simp only [hl, Bool.false_eq_true, if_false, CstNode.collectLeaves,
          ofList_collectLeavesL]
        rw [ih source (next + 1)]
        rfl
  · intro source next
    rfl
  · intro c cs ihc ihcs source next
    simp only [tsListToCst, List.flatMap_cons]
    rw [ihc source next, ihcs source _]
    rfl

/-- C4: evaluating the parser conversion at the failing input. On the
tree-sitter-javascript parse of the source `"let x"`, the reconstructed
`to_source()` is `"letx"`: the whitespace between the `let` keyword and
the identifier belongs to no tree-sitter node, so pre-order leaf
concatenation drops it and the round-trip `to_source() == s` fails. -/
theorem roundtrip_fails_on_let_x :
    (tsNodeToCst jsSource 1 jsTree).1.toSource = "letx".data ∧
    (tsNodeToCst jsSource 1 jsTree).1.toSource ≠ jsSource := by
  constructor <;> decide

/- ──────────────────────────────  C5  ────────────────────────────── -/

/-- C5 counterexample: an ordered block whose two base children both hit
delete/edit conflicts (left edits both, right deletes both). The first
conflicting triple encountered is `(exB1, exL1, deleted)`, but
`amalgamate` returns the conflict of the *last* base child,
`(exB2, exL2, deleted)` — each conflict overwrites the recorded triple. -/
theorem amalgamate_returns_last_conflict_example :
    (orderedChildStep
        (amalgamateNodeF 15 ((matchTrees exBase exLeft).map fun p => (p.left, p.right))
          ((matchTrees exBase exRight).map fun p => (p.left, p.right))
          ((matchTrees exLeft exRight).map fun p => (p.left, p.right)))
        (buildChildMatchMap exBase.children exLeft.children
          ((matchTrees exBase exLeft).map fun p => (p.left, p.right)))
        (buildChildMatchMap exBase.children exRight.children
          ((matchTrees exBase exRight).map fun p => (p.left, p.right)))
        exB1).2 = some (exB1, exL1, deletedLeaf) ∧
    amalgamate ⟨exBase, exLeft, exRight⟩ =
      AmalgamResult.conflict exB2 exL2 deletedLeaf ∧
    exB2 ≠ exB1 := by
  refine ⟨by decide, by decide, by decide⟩

theorem lastSomeD_foldl (l : List (Option α)) :
    ∀ acc : Option α,
      l.foldl (fun acc o => match o with | some t => some t | none => acc) acc =
        match lastSomeD l with
        | some t => some t
        | none => acc := by
  induction l with
  | nil => intro acc; rfl
  | cons o rest ih =>
    intro acc
    rw [List.foldl_cons, ih]
    have hR : lastSomeD (o :: rest) =
        match lastSomeD rest with
        | some t => some t
        | none => (match o with | some t => some t | none => none) := by
      rw [lastSomeD, List.foldl_cons]
      exact ih _
    rw [hR]
    rcases lastSomeD rest with _ | t
    · rcases o with _ | u <;> rfl
    · rfl

theorem lastSomeD_cons (o : Option α) (l : List (Option α)) :
    lastSomeD (o :: l) =
      match lastSomeD l with
      | some t => some t
      | none => o := by
  rw [lastSomeD, List.foldl_cons, lastSomeD_foldl]
  rcases lastSomeD l with _ | t
  · rcases o with _ | u <;> rfl
  · rfl

theorem ordered_fold_conflict (recurse : CstNode → CstNode → CstNode → AmalgamResult)
    (blChild brChild : List (Nat × CstNode)) (children : List CstNode) :
    ∀ (m0 : List CstNode) (o0 : Option (CstNode × CstNode × CstNode)),
      (children.foldl (orderedAccum recurse blChild brChild) (m0, o0)).2 =
        match lastSomeD (children.map fun bc =>
            (orderedChildStep recurse blChild brChild bc).2) with
        | some t => some t
        | none => o0 := by
  induction children with
  | nil => intro m0 o0; rfl
  | cons bc rest ih =>
    intro m0 o0
    rw [List.foldl_cons, List.map_cons, lastSomeD_cons]
    have hacc : orderedAccum recurse blChild brChild (m0, o0) bc =
        (m0 ++ (orderedChildStep recurse blChild brChild bc).1,
          match (orderedChildStep recurse blChild brChild bc).2 with
          | some t => some t
          | none => o0) := rfl
    rw [hacc, ih]
    rcases lastSomeD (rest.map fun bc =>
        (orderedChildStep recurse blChild brChild bc).2) with _ | u
    · rcases (orderedChildStep recurse blChild brChild bc).2 with _ | t <;> rfl
    · rfl

/-- C5 (amended): when the ordered child walk of `amalgamate_children` is
reached and at least one base child conflicts, the result is `Conflict`
carrying the triple of the *last* conflicting base child (each conflict
overwrites the previously recorded triple), not the first. -/
theorem amalgamate_children_conflict_is_last (fuel : Nat) (bl br lr : PairMap)
    (base left right : CstNode) (t : CstNode × CstNode × CstNode)
    (h1 : base.structurallyEqual left = false)
    (h2 : base.structurallyEqual right = false)
    (h3 : left.structurallyEqual right = false)
    (h4 : base.isLeaf = false) (h5 : left.isLeaf = false)
    (h6 : right.isLeaf = false) (h7 : isUnorderedList base = false)
    (hlast : lastSomeD (base.children.map fun bc =>
        (orderedChildStep (amalgamateNodeF fuel bl br lr)
          (buildChildMatchMap base.children left.children bl)
          (buildChildMatchMap base.children right.children br) bc).2) = some t) :
    amalgamateNodeF (fuel + 1) bl br lr base left right =
      AmalgamResult.conflict t.1 t.2.1 t.2.2 := by
  have hst := ordered_fold_conflict (amalgamateNodeF fuel bl br lr)
    (buildChildMatchMap base.children left.children bl)
    (buildChildMatchMap base.children right.children br) base.children [] none
  rw [hlast] at hst
  rw [amalgamateNodeF]
  simp only [h1, h2, h3, h4, h5, h6, h7, Bool.false_and, Bool.false_eq_true,
    if_false, Bool.not_false, Bool.and_self, if_true, hst]

/-- Witness for the amended C5 theorem: at the concrete two-conflict
example the walk's last conflict triple is the one returned. -/
theorem amalgamate_children_conflict_is_last_witness :
    amalgamateNodeF 16 ((matchTrees exBase exLeft).map fun p => (p.left, p.right))
      ((matchTrees exBase exRight).map fun p => (p.left, p.right))
      ((matchTrees exLeft exRight).map fun p => (p.left, p.right))
      exBase exLeft exRight =
      AmalgamResult.conflict exB2 exL2 deletedLeaf :=
  amalgamate_children_conflict_is_last 15
    ((matchTrees exBase exLeft).map fun p => (p.left, p.right))
    ((matchTrees exBase exRight).map fun p => (p.left, p.right))
    ((matchTrees exLeft exRight).map fun p => (p.left, p.right))
    exBase exLeft exRight (exB2, exL2, deletedLeaf)
    (by decide) (by decide) (by decide) (by decide) (by decide) (by decide)
    (by decide) (by decide)

/- ──────────────────────────────  C6  ────────────────────────────── -/

theorem lexLe_total (a : Str) : ∀ b : Str, lexLe a b = true ∨ lexLe b a = true := by
  induction a with
  | nil => intro b; left; rfl
  | cons x xs ih =>
    intro b
    rcases b with _ | ⟨y, ys⟩
    · right; rfl
    · by_cases h1 : x.toNat < y.toNat
      · left; simp [lexLe, h1]
      · by_cases h2 : y.toNat < x.toNat
        · right; simp [lexLe, h2]
        · rcases ih ys with h | h
          · left; simp [lexLe, h1, h2, h]
          · right; simp [lexLe, h1, h2, h]

theorem lexLe_trans (a : Str) :
    ∀ b c : Str, lexLe a b = true → lexLe b c = true → lexLe a c = true := by
  induction a with
  | nil => intro b c _ _; rfl
  | cons x xs ih =>
    intro b c hab hbc
    rcases b with _ | ⟨y, ys⟩
    · simp [lexLe] at hab
    · rcases c with _ | ⟨z, zs⟩
      · simp [lexLe] at hbc
      · simp only [lexLe] at hab hbc ⊢
        by_cases h1 : x.toNat < y.toNat
        · by_cases h2 : y.toNat < z.toNat
          · simp [show x.toNat < z.toNat by omega]
          · by_cases h4 : z.toNat < y.toNat
            · simp [h2, h4] at hbc
            · simp [show x.toNat < z.toNat by omega]
        · by_cases h3 : y.toNat < x.toNat
          · simp [h1, h3] at hab
          · have hxs : lexLe xs ys = true := by simpa [h1, h3] using hab
            by_cases h2 : y.toNat < z.toNat
            · simp [show x.toNat < z.toNat by omega]
            · by_cases h4 : z.toNat < y.toNat
              · simp [h2, h4] at hbc
              · have hys : lexLe ys zs = true := by simpa [h2, h4] using hbc
                simp [show ¬ x.toNat < z.toNat by omega,
                  show ¬ z.toNat < x.toNat by omega, ih ys zs hxs hys]

theorem insertBy_perm (putAfter : α → α → Bool) (x : α) (l : List α) :
    List.Perm (insSortBy.insertBy putAfter l x) (x :: l) := by
  induction l with
  | nil => exact List.Perm.refl _
  | cons y ys ih =>
    rw [insSortBy.insertBy]
    by_cases h : putAfter y x
    · simp only [h, if_true]
      exact (List.Perm.cons y ih).trans (List.Perm.swap x y ys)
    · simp only [h, Bool.false_eq_true, if_false]
      exact List.Perm.refl _

theorem insSortBy_perm (putAfter : α → α → Bool) (l : List α) :
    List.Perm (insSortBy putAfter l) l := by
  induction l with
  | nil => exact List.Perm.refl _
  | cons x xs ih =>
    rw [insSortBy]
    exact (insertBy_perm putAfter x (insSortBy putAfter xs)).trans
      (List.Perm.cons x ih)

theorem insertBy_pairwise (le : α → α → Prop) (putAfter : α → α → Bool)
    (htrans : ∀ a b c, le a b → le b c → le a c)
    (hyes : ∀ y x, putAfter y x = true → le y x)
    (hno : ∀ y x, putAfter y x = false → le x y)
    (x : α) (l : List α) (hl : l.Pairwise le) :
    (insSortBy.insertBy putAfter l x).Pairwise le := by
  induction l with
  | nil => simp [insSortBy.insertBy]
  | cons y ys ih =>
    rw [insSortBy.insertBy]
    rcases List.pairwise_cons.mp hl with ⟨hy, hys⟩
    by_cases h : putAfter y x
    · simp only [h, if_true]
      refine List.pairwise_cons.mpr ⟨?_, ih hys⟩
      intro z hz
      have hz2 := (insertBy_perm putAfter x ys).mem_iff.mp hz
      rcases List.mem_cons.mp hz2 with rfl | hz3
      · exact hyes y z h
      · exact hy z hz3
    · simp only [h, Bool.false_eq_true, if_false]
      refine List.pairwise_cons.mpr ⟨?_, hl⟩
      intro z hz
      have hxy := hno y x (by simpa using h)
      rcases List.mem_cons.mp hz with rfl | hz2
      · exact hxy
      · exact htrans x y z hxy (hy z hz2)

theorem insSortBy_pairwise (le : α → α → Prop) (putAfter : α → α → Bool)
    (htrans : ∀ a b c, le a b → le b c → le a c)
    (hyes : ∀ y x, putAfter y x = true → le y x)
    (hno : ∀ y x, putAfter y x = false → le x y)
    (l : List α) : (insSortBy putAfter l).Pairwise le := by
  induction l with
  | nil => simp [insSortBy]
  | cons x xs ih =>
    rw [insSortBy]
    exact insertBy_pairwise le putAfter htrans hyes hno x _ ih

theorem dedupKeepFirst_mem [DecidableEq α] (l : List α) (x : α) :
    x ∈ dedupKeepFirst l ↔ x ∈ l := by
  induction l with
  | nil => simp [dedupKeepFirst]
  | cons a as ih =>
    rw [dedupKeepFirst]
    constructor
    · intro h
      rcases List.mem_cons.mp h with rfl | h2
      · exact List.mem_cons_self _ _
      · exact List.mem_cons_of_mem _ (ih.mp (List.mem_of_mem_filter h2))
    · intro h
      rcases List.mem_cons.mp h with rfl | h2
      · exact List.mem_cons_self _ _
      · by_cases hx : x = a
        · exact hx ▸ List.mem_cons_self _ _
        · exact List.mem_cons_of_mem _
            (List.mem_filter.mpr ⟨ih.mpr h2, by simpa using hx⟩)

theorem dedupKeepFirst_nodup [DecidableEq α] (l : List α) :
    (dedupKeepFirst l).Nodup := by
  induction l with
  | nil => simp [dedupKeepFirst]
  | cons a as ih =>
    rw [dedupKeepFirst]
    refine List.nodup_cons.mpr ⟨?_, List.Nodup.filter _ ih⟩
    intro hmem
    exact (by simpa using (List.mem_filter.mp hmem).2 : a ≠ a) rfl

/-- C6 (amended): when every non-empty line of base, left and right is
import-like the rule matches, and its resolution is the deduplicated,
lexicographically sorted union of the non-empty (trimmed) lines of *left
and right only* — base's lines are not collected (an amendment forced by
the counterexample below), and each surviving line appears exactly
once. -/
theorem import_union_rule_spec (s : MergeScenario Str)
    (himp : ∀ t ∈ [s.base, s.left, s.right], ∀ l ∈ rustLines t,
      trimStr l ≠ [] → isImportLine l = true) :
    ruleMatches s RuleName.importUnion = true ∧
    ruleResolve s RuleName.importUnion = joinNl (importUnionList s) ∧
    (importUnionList s).Pairwise (fun a b => lexLe a b = true) ∧
    (importUnionList s).Nodup ∧
    (∀ x, x ∈ importUnionList s ↔
      (x ∈ (rustLines s.left ++ rustLines s.right).map trimStr ∧ x ≠ [])) := by
  refine ⟨?_, rfl, ?_, ?_, ?_⟩
  · have hone : ∀ t ∈ [s.base, s.left, s.right],
        ((rustLines t).filter fun l => !(trimStr l = [])).all isImportLine = true := by
      intro t ht
      rw [List.all_eq_true]
      intro l hl
      have h2 := List.mem_filter.mp hl
      exact himp t ht l h2.1 (by simpa using h2.2)
    have hb := hone s.base (by simp)
    have hl := hone s.left (by simp)
    have hr := hone s.right (by simp)
    simp only [ruleMatches]
    rw [hb, hl, hr]
    rfl
  · exact insSortBy_pairwise _ _
      (fun a b c => lexLe_trans a b c)
      (fun y x h => by
        rcases lexLe_total y x with h2 | h2
        · exact h2
        · simp [h2] at h)
      (fun y x h => by simpa using h)
      _
  · exact ((insSortBy_perm _ _).nodup_iff).mpr (dedupKeepFirst_nodup _)
  · intro x
    rw [importUnionList, (insSortBy_perm _ _).mem_iff, dedupKeepFirst_mem,
      List.mem_filter]
    simp

/-- Witness for the amended C6 theorem at the spec's import-union
scenario. -/
theorem import_union_rule_spec_witness :
    ruleMatches ⟨"import a\nimport b".data, "import a\nimport b\nimport c".data,
        "import a\nimport b\nimport d".data⟩ RuleName.importUnion = true ∧
    ruleResolve ⟨"import a\nimport b".data, "import a\nimport b\nimport c".data,
        "import a\nimport b\nimport d".data⟩ RuleName.importUnion =
      joinNl (importUnionList ⟨"import a\nimport b".data,
        "import a\nimport b\nimport c".data, "import a\nimport b\nimport d".data⟩) ∧
    (importUnionList ⟨"import a\nimport b".data, "import a\nimport b\nimport c".data,
        "import a\nimport b\nimport d".data⟩).Pairwise (fun a b => lexLe a b = true) ∧
    (importUnionList ⟨"import a\nimport b".data, "import a\nimport b\nimport c".data,
        "import a\nimport b\nimport d".data⟩).Nodup ∧
    (∀ x, x ∈ importUnionList ⟨"import a\nimport b".data,
        "import a\nimport b\nimport c".data, "import a\nimport b\nimport d".data⟩ ↔
      (x ∈ (rustLines "import a\nimport b\nimport c".data ++
          rustLines "import a\nimport b\nimport d".data).map trimStr ∧ x ≠ [])) :=
  import_union_rule_spec ⟨"import a\nimport b".data,
    "import a\nimport b\nimport c".data, "import a\nimport b\nimport d".data⟩
    (by decide)

/-- C6 counterexample: with base `"import z"`, left `"import a"`, right
`"import b"` the rule matches, but the resolution is
`"import a\nimport b"` — the base line `"import z"` is not part of the
union, refuting "union of all non-empty lines of base, left, and
right". -/
theorem import_union_drops_base_line :
    ruleMatches ⟨"import z".data, "import a".data, "import b".data⟩
        RuleName.importUnion = true ∧
    tryResolve ⟨"import z".data, "import a".data, "import b".data⟩ =
      some ⟨"import a\nimport b".data, Confidence.high,
        ResolutionStrategy.patternRule⟩ ∧
    ("import z".data ∉ rustLines "import a\nimport b".data) := by
  refine ⟨by decide, by decide, by decide⟩

/- ──────────────────────────────  C8  ────────────────────────────── -/

theorem insertBy_map (h : α → β) (pa : β → β → Bool) (pb : α → α → Bool)
    (hcomp : ∀ a b, pa (h a) (h b) = pb a b) (x : α) (l : List α) :
    insSortBy.insertBy pa (l.map h) (h x) = (insSortBy.insertBy pb l x).map h := by
  induction l with
  | nil => rfl
  | cons y ys ih =>
    simp only [List.map_cons, insSortBy.insertBy, hcomp]
    by_cases hc : pb y x
    · simp [hc, ih]
    · simp [hc]

theorem insSortBy_map (h : α → β) (pa : β → β → Bool) (pb : α → α → Bool)
    (hcomp : ∀ a b, pa (h a) (h b) = pb a b) (l : List α) :
    insSortBy pa (l.map h) = (insSortBy pb l).map h := by
  induction l with
  | nil => rfl
  | cons x xs ih =>
    simp only [List.map_cons, insSortBy, ih]
    exact insertBy_map h pa pb hcomp x (insSortBy pb xs)

theorem filter_map_comm (h : α → β) (pb : β → Bool) (pa : α → Bool)
    (hp : ∀ a, pb (h a) = pa a) (l : List α) :
    (l.map h).filter pb = (l.filter pa).map h := by
  induction l with
  | nil => rfl
  | cons y ys ih =>
    simp only [List.map_cons, List.filter_cons, hp]
    by_cases hc : pa y = true
    · simp [hc, ih]
    · have hf : pa y = false := by simpa using hc
      simp [hf, ih]

theorem dedupByKeyFirst_map [DecidableEq γ] (h : α → β) (kb : β → γ) (ka : α → γ)
    (hk : ∀ a, kb (h a) = ka a) (l : List α) :
    dedupByKeyFirst kb (l.map h) = (dedupByKeyFirst ka l).map h := by
  induction l with
  | nil => rfl
  | cons x xs ih =>
    simp only [List.map_cons, dedupByKeyFirst, ih]
    congr 1
    exact filter_map_comm h _ _ (fun a => by simp [hk]) (dedupByKeyFirst ka xs)

theorem mapIdx_indep (g : α → β) (l : List α) :
    List.mapIdx (fun _ a => g a) l = l.map g := by
  induction l with
  | nil => rfl
  | cons x xs ih => simp [List.mapIdx_cons, ih]

/-- C8: `rank_candidates` computes, for each candidate, the score
`(sim(c,left) + sim(c,right) − 0.5·sim(c,base)) / max(1, size c)`, sorts
descending (stable), deduplicates by source text keeping the first
occurrence, assigns the surviving head `Medium` and all others `Low`, all
tagged `VersionSpaceAlgebra` — exactly the spec's procedure
(`rankCandidatesSpec`); `f64` arithmetic is modelled by exact
rationals. -/
theorem rank_candidates_follows_spec (cands : List CstNode)
    (s : MergeScenario CstNode) :
    rankCandidates cands s = rankCandidatesSpec cands s := by
  rw [rankCandidates, rankCandidatesSpec]
  have hmap : (cands.map fun c =>
      (c, ((treeSimilarity c s.left : Rat) + (treeSimilarity c s.right : Rat)
        - (treeSimilarity c s.base : Rat) * (1 / 2)) / ((max c.size 1 : Nat) : Rat))) =
      cands.map fun c =>
        (c, ((treeSimilarity c s.left : Rat) + (treeSimilarity c s.right : Rat)
          - (1 / 2) * (treeSimilarity c s.base : Rat)) / ((max 1 c.size : Nat) : Rat)) := by
    refine List.map_congr_left fun c _ => ?_
    rw [mul_comm, Nat.max_comm]
  rw [hmap]
  rw [insSortBy_map
    (fun c : CstNode =>
      (c, ((treeSimilarity c s.left : Rat) + (treeSimilarity c s.right : Rat)
        - (1 / 2) * (treeSimilarity c s.base : Rat)) / ((max 1 c.size : Nat) : Rat)))
    (fun y x => decide (x.2 < y.2))
    (fun y x => decide
      ((((treeSimilarity x s.left : Rat) + (treeSimilarity x s.right : Rat)
        - (1 / 2) * (treeSimilarity x s.base : Rat)) / ((max 1 x.size : Nat) : Rat)) <
       (((treeSimilarity y s.left : Rat) + (treeSimilarity y s.right : Rat)
        - (1 / 2) * (treeSimilarity y s.base : Rat)) / ((max 1 y.size : Nat) : Rat))))
    (fun a b => rfl) cands]
  rw [dedupByKeyFirst_map
    (fun c : CstNode =>
      (c, ((treeSimilarity c s.left : Rat) + (treeSimilarity c s.right : Rat)
        - (1 / 2) * (treeSimilarity c s.base : Rat)) / ((max 1 c.size : Nat) : Rat)))
    (fun p => p.1.toSource) CstNode.toSource (fun a => rfl)]
  rcases dedupByKeyFirst CstNode.toSource (insSortBy _ cands) with _ | ⟨top, rest⟩
  · rfl
  · rw [List.map_cons, List.mapIdx_cons]
    congr 1
    have : (fun i (p : CstNode × Rat) =>
        (⟨p.1.toSource, if i + 1 = 0 then Confidence.medium else Confidence.low,
          ResolutionStrategy.versionSpaceAlgebra⟩ : ResolutionCandidate)) =
        fun _ p =>
          (⟨p.1.toSource, Confidence.low,
            ResolutionStrategy.versionSpaceAlgebra⟩ : ResolutionCandidate) := by
      funext i p
      simp
    rw [this, mapIdx_indep, List.map_map]
    rfl

/- ──────────────────────────────  C10  ────────────────────────────── -/

theorem tryStructured_err (parse : Parser) (b l r : Str) (lang : Language)
    (hfail : isErrE (parse b lang) = true ∨ isErrE (parse l lang) = true ∨
      isErrE (parse r lang) = true) :
    ∃ e, tryStructuredMerge parse b l r lang = Except.error e := by
  rcases hb : parse b lang with e | bt
  · exact ⟨e, by simp [tryStructuredMerge, hb, Bind.bind, Except.bind]⟩
  · rcases hl : parse l lang with e | lt
    · exact ⟨e, by simp [tryStructuredMerge, hb, hl, Bind.bind, Except.bind]⟩
    · rcases hr : parse r lang with e | rt
      · exact ⟨e, by simp [tryStructuredMerge, hb, hl, hr, Bind.bind, Except.bind]⟩
      · exfalso
        rcases hfail with h | h | h <;> simp_all [isErrE]

theorem tryVsa_err (parse : Parser) (b l r : Str) (lang : Language) (m : Nat)
    (hfail : isErrE (parse b lang) = true ∨ isErrE (parse l lang) = true ∨
      isErrE (parse r lang) = true) :
    ∃ e, tryVsaResolve parse b l r lang m = Except.error e := by
  rcases hb : parse b lang with e | bt
  · exact ⟨e, by simp [tryVsaResolve, hb, Bind.bind, Except.bind]⟩
  · rcases hl : parse l lang with e | lt
    · exact ⟨e, by simp [tryVsaResolve, hb, hl, Bind.bind, Except.bind]⟩
    · rcases hr : parse r lang with e | rt
      · exact ⟨e, by simp [tryVsaResolve, hb, hl, hr, Bind.bind, Except.bind]⟩
      · exfalso
        rcases hfail with h | h | h <;> simp_all [isErrE]

theorem dedupByKeyFirst_subset [DecidableEq γ] (key : α → γ) (l : List α) :
    ∀ x ∈ dedupByKeyFirst key l, x ∈ l := by
  induction l with
  | nil => simp [dedupByKeyFirst]
  | cons a as ih =>
    intro x hx
    rw [dedupByKeyFirst] at hx
    rcases List.mem_cons.mp hx with rfl | h2
    · exact List.mem_cons_self _ _
    · exact List.mem_cons_of_mem _ (ih x (List.mem_of_mem_filter h2))

theorem searchResolve_strategy (s : MergeScenario Str) (cfg : SearchConfig) :
    ∀ c ∈ searchResolve s cfg, c.strategy = ResolutionStrategy.searchBased := by
  intro c hc
  rw [searchResolve] at hc
  rcases List.mem_map.mp hc with ⟨content, _, rfl⟩
  rfl

theorem tryResolve_strategy (s : MergeScenario Str) (c : ResolutionCandidate)
    (h : tryResolve s = some c) : c.strategy = ResolutionStrategy.patternRule := by
  rw [tryResolve] at h
  rcases hfind : registryRules.find? (ruleMatches s) with _ | rule
  · rw [hfind] at h
    simp at h
  · rw [hfind] at h
    cases h
    rfl

/-- C10 (amended): when the language is configured and parsing any of the
three versions fails, and the pattern stage does not auto-accept (the
source returns early from `resolve_conflict` when a pattern rule hits at
or above the threshold — in that case no later strategy runs at all),
`resolve_conflict` never propagates the `ParseError`: the
`StructuredMerge` and `VersionSpaceAlgebra` stages contribute no
candidates (though they are recorded as tried), and the final candidate
list is exactly the confidence-sorted, content-deduplicated pattern and
search candidates. -/
theorem parse_error_skips_tree_strategies (cfg : ResolverConfig) (parse : Parser)
    (b l r : Str) (lang : Language) (hlang : cfg.language = some lang)
    (hfail : isErrE (parse b lang) = true ∨ isErrE (parse l lang) = true ∨
      isErrE (parse r lang) = true)
    (hpat : ∀ c, tryResolve ⟨b, l, r⟩ = some c →
      c.confidence.ge cfg.autoAcceptThreshold = false) :
    (resolveConflict cfg parse b l r).strategiesTried =
      [ResolutionStrategy.patternRule, ResolutionStrategy.structuredMerge,
        ResolutionStrategy.versionSpaceAlgebra, ResolutionStrategy.searchBased] ∧
    (resolveConflict cfg parse b l r).candidates =
      dedupByKeyFirst (fun c => c.content)
        (insSortBy (fun y x => x.confidence.rank < y.confidence.rank)
          ((tryResolve ⟨b, l, r⟩).toList ++
            searchResolve ⟨b, l, r⟩ cfg.searchConfig)) ∧
    (∀ c ∈ (resolveConflict cfg parse b l r).candidates,
      c.strategy = ResolutionStrategy.patternRule ∨
      c.strategy = ResolutionStrategy.searchBased) := by
  obtain ⟨e1, he1⟩ := tryStructured_err parse b l r lang hfail
  obtain ⟨e2, he2⟩ := tryVsa_err parse b l r lang cfg.maxVsaCandidates hfail
  have hmain : resolveConflict cfg parse b l r =
      conflictStage4 cfg ⟨b, l, r⟩ (diff3Merge ⟨b, l, r⟩)
        ((tryResolve ⟨b, l, r⟩).toList)
        [ResolutionStrategy.patternRule, ResolutionStrategy.structuredMerge,
          ResolutionStrategy.versionSpaceAlgebra] := by
    rw [resolveConflict]
    rcases hres : tryResolve ⟨b, l, r⟩ with _ | c
    · simp only [Option.toList]
      rw [conflictStage2]
      simp only [hlang, he1]
      rw [conflictStage3]
      simp only [hlang, he2]
      rfl
    · simp only [Option.toList, hpat c hres, Bool.false_eq_true, if_false]
      rw [conflictStage2]
      simp only [hlang, he1]
      rw [conflictStage3]
      simp only [hlang, he2]
      rfl
  refine ⟨?_, ?_, ?_⟩
  · rw [hmain, conflictStage4]
    rfl
  · rw [hmain, conflictStage4]
  · intro c hc
    rw [hmain, conflictStage4] at hc
    have hc2 := dedupByKeyFirst_subset _ _ c hc
    have hc3 := (insSortBy_perm _ _).mem_iff.mp hc2
    rcases List.mem_append.mp hc3 with h | h
    · left
      rcases hres : tryResolve ⟨b, l, r⟩ with _ | c2
      · rw [hres] at h
        simp [Option.toList] at h
      · rw [hres] at h
        simp only [Option.toList, List.mem_singleton] at h
        subst h
        exact tryResolve_strategy _ _ hres
    · right
      exact searchResolve_strategy _ _ c h

/-- Witness for the amended C10 theorem: language configured, the parser
failing, and a scenario no pattern rule matches. -/
theorem parse_error_skips_tree_strategies_witness :
    (resolveConflict ⟨Confidence.medium, 100, SearchConfig.default, some Language.rust⟩
        (fun _ _ => Except.error ParseError.parseFailed)
        "a".data "b".data "c".data).strategiesTried =
      [ResolutionStrategy.patternRule, ResolutionStrategy.structuredMerge,
        ResolutionStrategy.versionSpaceAlgebra, ResolutionStrategy.searchBased] ∧
    (resolveConflict ⟨Confidence.medium, 100, SearchConfig.default, some Language.rust⟩
        (fun _ _ => Except.error ParseError.parseFailed)
        "a".data "b".data "c".data).candidates =
      dedupByKeyFirst (fun c => c.content)
        (insSortBy (fun y x => x.confidence.rank < y.confidence.rank)
          ((tryResolve ⟨"a".data, "b".data, "c".data⟩).toList ++
            searchResolve ⟨"a".data, "b".data, "c".data⟩ SearchConfig.default)) ∧
    (∀ c ∈ (resolveConflict ⟨Confidence.medium, 100, SearchConfig.default,
        some Language.rust⟩
        (fun _ _ => Except.error ParseError.parseFailed)
        "a".data "b".data "c".data).candidates,
      c.strategy = ResolutionStrategy.patternRule ∨
      c.strategy = ResolutionStrategy.searchBased) :=
  parse_error_skips_tree_strategies
    ⟨Confidence.medium, 100, SearchConfig.default, some Language.rust⟩
    (fun _ _ => Except.error ParseError.parseFailed)
    "a".data "b".data "c".data Language.rust rfl
    (Or.inl rfl)
    (by decide)

/-- C10 counterexample: with a configured language, a failing parser and
a scenario the whitespace-only rule accepts at the default threshold,
`resolve_conflict` returns at the pattern stage: `SearchBased` is never
run and contributes no candidates, refuting "the SearchBased strategy
still runs and its candidates are included" for every conflict region. -/
theorem search_skipped_on_pattern_hit :
    (resolveConflict ⟨Confidence.medium, 100, SearchConfig.default, some Language.rust⟩
        (fun _ _ => Except.error ParseError.parseFailed)
        "old".data "new".data "new".data).strategiesTried =
      [ResolutionStrategy.patternRule] ∧
    ResolutionStrategy.searchBased ∉
      (resolveConflict ⟨Confidence.medium, 100, SearchConfig.default, some Language.rust⟩
        (fun _ _ => Except.error ParseError.parseFailed)
        "old".data "new".data "new".data).strategiesTried ∧
    (∀ c ∈ (resolveConflict ⟨Confidence.medium, 100, SearchConfig.default,
        some Language.rust⟩
        (fun _ _ => Except.error ParseError.parseFailed)
        "old".data "new".data "new".data).candidates,
      c.strategy ≠ ResolutionStrategy.searchBased) := by
  refine ⟨by decide, by decide, by decide⟩

/- ──────────────────────────────  C7  ────────────────────────────── -/

theorem getD_id_inj (L : List CstNode) (hL : (nodeIds L).Nodup) :
    ∀ a b : Nat, a < L.length → b < L.length →
    (L.getD a default).id = (L.getD b default).id → a = b := by
  intro a b ha hb h
  rw [List.getD_eq_getElem L default ha, List.getD_eq_getElem L default hb] at h
  have ha2 : a < (nodeIds L).length := by simpa [nodeIds] using ha
  have hb2 : b < (nodeIds L).length := by simpa [nodeIds] using hb
  have h3 : (nodeIds L).get ⟨a, ha2⟩ = (nodeIds L).get ⟨b, hb2⟩ := by
    simpa [nodeIds] using h
  have h4 := (List.Nodup.get_inj_iff hL).mp h3
  exact congrArg Fin.val h4

theorem yangTraceGo_c1 (L R : List CstNode) (t : List (List Nat)) (f i j : Nat)
    (h : yangChoice L R t (i + 1) (j + 1) = 1) :
    yangTraceGo L R t (f + 1) (i + 1) (j + 1) =
      ⟨(L.getD i default).id, (R.getD j default).id,
        treeSimilarity (L.getD i default) (R.getD j default)⟩ ::
        yangTraceGo L R t f i j := by
  rw [yangTraceGo]
  simp [h]

theorem yangTraceGo_c2 (L R : List CstNode) (t : List (List Nat)) (f i j : Nat)
    (h : yangChoice L R t (i + 1) (j + 1) = 2) :
    yangTraceGo L R t (f + 1) (i + 1) (j + 1) = yangTraceGo L R t f i (j + 1) := by
  rw [yangTraceGo]
  simp [h]

theorem yangTraceGo_c3 (L R : List CstNode) (t : List (List Nat)) (f i j : Nat)
    (h : yangChoice L R t (i + 1) (j + 1) = 3) :
    yangTraceGo L R t (f + 1) (i + 1) (j + 1) = yangTraceGo L R t f (i + 1) j := by
  rw [yangTraceGo]
  simp [h]

theorem yangTraceGo_celse (L R : List CstNode) (t : List (List Nat)) (f i j : Nat)
    (h1 : yangChoice L R t (i + 1) (j + 1) ≠ 1)
    (h2 : yangChoice L R t (i + 1) (j + 1) ≠ 2)
    (h3 : yangChoice L R t (i + 1) (j + 1) ≠ 3) :
    yangTraceGo L R t (f + 1) (i + 1) (j + 1) = [] := by
  rw [yangTraceGo]
  simp [h1, h2, h3]

theorem yangTraceGo_shape (L R : List CstNode) (t : List (List Nat)) :
    ∀ (fuel i j : Nat), ∃ idx : List (Nat × Nat),
      (∀ q ∈ idx, q.1 < i ∧ q.2 < j) ∧
      List.Pairwise (fun q q2 => q2.1 < q.1 ∧ q2.2 < q.2) idx ∧
      yangTraceGo L R t fuel i j = idx.map (fun q =>
        ⟨(L.getD q.1 default).id, (R.getD q.2 default).id,
          treeSimilarity (L.getD q.1 default) (R.getD q.2 default)⟩) := by
  intro fuel
  induction fuel with
  | zero =>
    intro i j
    exact ⟨[], by simp, List.Pairwise.nil, rfl⟩
  | succ f ih =>
    intro i j
    rcases i with _ | i
    · exact ⟨[], by simp, List.Pairwise.nil, by cases j <;> rfl⟩
    rcases j with _ | j
    · exact ⟨[], by simp, List.Pairwise.nil, rfl⟩
    by_cases h1 : yangChoice L R t (i + 1) (j + 1) = 1
    · obtain ⟨idx, hb, hp, he⟩ := ih i j
      refine ⟨(i, j) :: idx, ?_, ?_, ?_⟩
      · intro q hq
        rcases List.mem_cons.mp hq with rfl | hq2
        · exact ⟨Nat.lt_succ_self i, Nat.lt_succ_self j⟩
        · exact ⟨Nat.lt_succ_of_lt (hb q hq2).1, Nat.lt_succ_of_lt (hb q hq2).2⟩
      · exact List.Pairwise.cons (fun q hq => ⟨(hb q hq).1, (hb q hq).2⟩) hp
      · rw [yangTraceGo_c1 L R t f i j h1, he, List.map_cons]
    by_cases h2 : yangChoice L R t (i + 1) (j + 1) = 2
    · obtain ⟨idx, hb, hp, he⟩ := ih i (j + 1)
      refine ⟨idx, ?_, hp, ?_⟩
      · intro q hq
        exact ⟨Nat.lt_succ_of_lt (hb q hq).1, (hb q hq).2⟩
      · rw [yangTraceGo_c2 L R t f i j h2, he]
    by_cases h3 : yangChoice L R t (i + 1) (j + 1) = 3
    · obtain ⟨idx, hb, hp, he⟩ := ih (i + 1) j
      refine ⟨idx, ?_, hp, ?_⟩
      · intro q hq
        exact ⟨(hb q hq).1, Nat.lt_succ_of_lt (hb q hq).2⟩
      · rw [yangTraceGo_c3 L R t f i j h3, he]
    exact ⟨[], by simp, List.Pairwise.nil, yangTraceGo_celse L R t f i j h1 h2 h3⟩

theorem mapIdxNodup (M : List CstNode) (hM : (nodeIds M).Nodup)
    (idx : List (Nat × Nat)) (sel : Nat × Nat → Nat)
    (hb : ∀ q ∈ idx, sel q < M.length)
    (hp : idx.Pairwise fun q q2 => sel q2 < sel q) :
    (idx.map fun q => (M.getD (sel q) default).id).Nodup := by
  apply List.pairwise_map.mpr
  refine List.Pairwise.imp_of_mem ?_ hp
  intro q q2 hq hq2 hlt heq
  have := getD_id_inj M hM (sel q) (sel q2) (hb q hq) (hb q2 hq2) heq
  omega

theorem foldlInv {σ α : Type _} (P : σ → Prop) (f : σ → α → σ) :
    ∀ (l : List α) (init : σ), P init →
      (∀ s a, a ∈ l → P s → P (f s a)) → P (l.foldl f init) := by
  intro l
  induction l with
  | nil => intro init h0 _; exact h0
  | cons a as ih =>
    intro init h0 hstep
    exact ih (f init a) (hstep init a (List.mem_cons_self a as) h0)
      (fun s b hb hs => hstep s b (List.mem_cons_of_mem a hb) hs)

theorem updFn_same [DecidableEq α] (f : α → β) (k : α) (v : β) :
    updFn f k v k = v := by
  simp [updFn]

theorem updFn_other [DecidableEq α] (f : α → β) (k x : α) (v : β) (h : x ≠ k) :
    updFn f k v x = f x := by
  simp [updFn, h]

theorem colVals_succ (n : Nat) (p : Nat → Nat) :
    colVals (n + 1) p = colVals n p + {p (n + 1)} := by
  rw [colVals, colVals, List.range_succ, List.map_append]
  rfl

theorem colVals_congr (n : Nat) (p q : Nat → Nat)
    (h : ∀ j, 1 ≤ j → j ≤ n → p j = q j) : colVals n p = colVals n q := by
  rw [colVals, colVals]
  congr 1
  apply List.map_congr_left
  intro jm hjm
  exact h (jm + 1) (by omega) (by have := List.mem_range.mp hjm; omega)

theorem colVals_updFn_zero (n : Nat) (p : Nat → Nat) (v : Nat) :
    colVals n (updFn p 0 v) = colVals n p :=
  colVals_congr n _ p fun j hj1 _ => updFn_other p 0 j v (by omega)

theorem colVals_updFn (p : Nat → Nat) (v : Nat) :
    ∀ (n j0 : Nat), 1 ≤ j0 → j0 ≤ n →
    colVals n (updFn p j0 v) + {p j0} = colVals n p + {v} := by
  intro n
  induction n with
  | zero => intro j0 h1 h2; omega
  | succ n ih =>
    intro j0 h1 h2
    by_cases hj : j0 = n + 1
    · subst hj
      rw [colVals_succ, colVals_succ, updFn_same,
        colVals_congr n (updFn p (n + 1) v) p
          (fun j hj1 hj2 => updFn_other p (n + 1) j v (by omega)),
        add_right_comm]
    · have h2' : j0 ≤ n := by omega
      rw [colVals_succ, colVals_succ, updFn_other p j0 (n + 1) v (by omega),
        add_right_comm, ih j0 h1 h2', add_right_comm]

theorem rewriteGo_colVals (n : Nat) (way : Nat → Nat)
    (hway : ∀ j, way j ≤ n) (i : Nat) :
    ∀ (fuel : Nat) (p : Nat → Nat) (j0 : Nat) (pf : Nat → Nat),
      1 ≤ j0 → j0 ≤ n → p 0 = i →
      rewriteGo way fuel p j0 = some pf →
      colVals n pf + {p j0} = colVals n p + {i} := by
  intro fuel
  induction fuel with
  | zero =>
    intro p j0 pf _ _ _ hrw
    exact absurd hrw (by simp [rewriteGo])
  | succ f ih =>
    intro p j0 pf h1 h2 hp0 hrw
    rw [rewriteGo] at hrw
    by_cases hz : way j0 = 0
    · simp only [hz, if_pos, Option.some.injEq] at hrw
      rw [← hrw, hp0]
      exact colVals_updFn p i n j0 h1 h2
    · simp only [hz, if_neg, if_false] at hrw
      have h1' : 1 ≤ way j0 := Nat.one_le_iff_ne_zero.mpr hz
      have hp20 : updFn p j0 (p (way j0)) 0 = i := by
        rw [updFn_other p j0 0 (p (way j0)) (by omega)]
        exact hp0
      have hrec := ih (updFn p j0 (p (way j0))) (way j0) pf h1' (hway j0) hp20 hrw
      have hval : updFn p j0 (p (way j0)) (way j0) = p (way j0) := by
        by_cases h : way j0 = j0
        · rw [h, updFn_same]
        · rw [updFn_other p j0 (way j0) (p (way j0)) h]
      rw [hval] at hrec
      have hupdv := colVals_updFn p (p (way j0)) n j0 h1 h2
      have hcomb : colVals n pf + {p j0} + {p (way j0)} =
          colVals n p + {i} + {p (way j0)} := by
        calc colVals n pf + {p j0} + {p (way j0)}
            = colVals n pf + {p (way j0)} + {p j0} := add_right_comm _ _ _
          _ = colVals n (updFn p j0 (p (way j0))) + {i} + {p j0} := by rw [hrec]
          _ = colVals n (updFn p j0 (p (way j0))) + {p j0} + {i} :=
              add_right_comm _ _ _
          _ = colVals n p + {p (way j0)} + {i} := by rw [hupdv]
          _ = colVals n p + {i} + {p (way j0)} := add_right_comm _ _ _
      exact add_right_cancel hcomb

theorem searchPass_bounds (n : Nat) (cost : Nat → Nat → Int) (p : Nat → Nat)
    (u v : Nat → Int) (way : Nat → Nat) (minv : Nat → Int) (used : List Nat)
    (j0 : Nat) (hway : ∀ j, way j ≤ n) (hj0 : j0 ≤ n) :
    (∀ j, (searchPass n cost p u v way minv used j0).2.2.1 j ≤ n) ∧
    (searchPass n cost p u v way minv used j0).2.2.2.2.2 ≤ n := by
  have h := foldlInv
    (fun st : (Nat → Int) × (Nat → Nat) × Int × Nat =>
      (∀ j, st.2.1 j ≤ n) ∧ st.2.2.2 ≤ n)
    (fun (st : (Nat → Int) × (Nat → Nat) × Int × Nat) jm =>
      let j := jm + 1
      if (used ++ [j0]).contains j then st
      else
        let cur := cost (p j0 - 1) (j - 1) - u (p j0) - v j
        let mv := if cur < st.1 j then updFn st.1 j cur else st.1
        let wy := if cur < st.1 j then updFn st.2.1 j j0 else st.2.1
        if mv j < st.2.2.1 then (mv, wy, mv j, j) else (mv, wy, st.2.2.1, st.2.2.2))
    (List.range n) (minv, way, INTMAX, 0) ⟨hway, Nat.zero_le n⟩ ?_
  · exact ⟨fun j => h.1 j, h.2⟩
  · intro st jm hjm hst
    have hjmn : jm < n := List.mem_range.mp hjm
    by_cases hc : (used ++ [j0]).contains (jm + 1)
    · simp only [hc, eq_self_iff_true, if_true]
      exact hst
    · simp only [hc, if_false, Bool.false_eq_true]
      have hwy : ∀ j2,
          (if cost (p j0 - 1) (jm + 1 - 1) - u (p j0) - v (jm + 1) <
              st.1 (jm + 1) then updFn st.2.1 (jm + 1) j0 else st.2.1) j2 ≤ n := by
        intro j2
        by_cases hlt : cost (p j0 - 1) (jm + 1 - 1) - u (p j0) - v (jm + 1) <
            st.1 (jm + 1)
        · rw [if_pos hlt]
          by_cases he : j2 = jm + 1
          · rw [he, updFn_same]
            exact hj0
          · rw [updFn_other _ _ _ _ he]
            exact hst.1 j2
        · rw [if_neg hlt]
          exact hst.1 j2
      by_cases hd : (if cost (p j0 - 1) (jm + 1 - 1) - u (p j0) - v (jm + 1) <
            st.1 (jm + 1) then updFn st.1 (jm + 1)
              (cost (p j0 - 1) (jm + 1 - 1) - u (p j0) - v (jm + 1))
            else st.1) (jm + 1) < st.2.2.1
      · simp only [hd, if_pos]
        exact ⟨hwy, by omega⟩
      · simp only [hd, if_neg, if_false]
        exact ⟨hwy, hst.2⟩

theorem searchGo_some (n : Nat) (cost : Nat → Nat → Int) (p : Nat → Nat) :
    ∀ (fuel : Nat) (u v : Nat → Int) (way : Nat → Nat) (minv : Nat → Int)
      (used : List Nat) (j0 : Nat)
      (out : (Nat → Int) × (Nat → Int) × (Nat → Nat) × Nat),
      (∀ j, way j ≤ n) → j0 ≤ n →
      searchGo n cost p fuel u v way minv used j0 = some out →
      (∀ j, out.2.2.1 j ≤ n) ∧ out.2.2.2 ≤ n ∧ p out.2.2.2 = 0 := by
  intro fuel
  induction fuel with
  | zero =>
    intro u v way minv used j0 out _ _ h
    exact absurd h (by simp [searchGo])
  | succ f ih =>
    intro u v way minv used j0 out hway hj0 h
    rw [searchGo] at h
    have hb := searchPass_bounds n cost p u v way minv used j0 hway hj0
    by_cases hz : p (searchPass n cost p u v way minv used j0).2.2.2.2.2 = 0
    · simp only [hz, if_pos, Option.some.injEq] at h
      rw [← h]
      exact ⟨hb.1, hb.2, hz⟩
    · simp only [hz, if_neg, if_false] at h
      exact ih _ _ _ _ _ _ out hb.1 hb.2 h

theorem hungarianRunGo (cost : Nat → Nat → Int) (n : Nat) :
    ∀ (rows : List Nat) (g gf : HGlobal),
      (∀ j, g.way j ≤ n) →
      List.foldlM
        (fun (g : HGlobal) im =>
          let i := im + 1
          let p := updFn g.p 0 i
          match searchGo n cost p (n + 2) g.u g.v g.way (fun _ => INTMAX) [] 0 with
          | none => none
          | some (u, v, way, j0) =>
            match rewriteGo way (n + 2) p j0 with
            | none => none
            | some p2 => some ⟨p2, u, v, way⟩)
        g rows = some gf →
      (∀ j, gf.way j ≤ n) ∧
      colVals n gf.p + Multiset.replicate rows.length 0 =
        colVals n g.p + ((rows.map fun im => im + 1 : List Nat) : Multiset Nat) := by
  intro rows
  induction rows with
  | nil =>
    intro g gf hway h
    rw [List.foldlM_nil] at h
    simp only [Option.pure_def, Option.some.injEq] at h
    subst h
    refine ⟨hway, ?_⟩
    simp
  | cons a rest ih =>
    intro g gf hway h
    rw [List.foldlM_cons] at h
    cases hsg : searchGo n cost (updFn g.p 0 (a + 1)) (n + 2) g.u g.v g.way
        (fun _ => INTMAX) [] 0 with
    | none => simp [hsg] at h
    | some quad =>
      obtain ⟨u, v, way, j0⟩ := quad
      cases hrw : rewriteGo way (n + 2) (updFn g.p 0 (a + 1)) j0 with
      | none => simp [hsg, hrw] at h
      | some p2 =>
        simp only [hsg, hrw, Option.bind_eq_bind, Option.some_bind] at h
        have hsgf := searchGo_some n cost (updFn g.p 0 (a + 1)) (n + 2)
          g.u g.v g.way (fun _ => INTMAX) [] 0 (u, v, way, j0) hway
          (Nat.zero_le n) hsg
        have hway2 : ∀ j, way j ≤ n := hsgf.1
        have hj0n : j0 ≤ n := hsgf.2.1
        have hj0z : updFn g.p 0 (a + 1) j0 = 0 := hsgf.2.2
        have hj00 : j0 ≠ 0 := by
          intro h0
          rw [h0, updFn_same] at hj0z
          omega
        have hrc := rewriteGo_colVals n way hway2 (a + 1) (n + 2)
          (updFn g.p 0 (a + 1)) j0 p2 (Nat.one_le_iff_ne_zero.mpr hj00) hj0n
          (updFn_same _ _ _) hrw
        rw [hj0z, colVals_updFn_zero] at hrc
        have hrest := ih ⟨p2, u, v, way⟩ gf hway2 h
        refine ⟨hrest.1, ?_⟩
        have e1 : Multiset.replicate (a :: rest).length (0 : Nat) =
            Multiset.replicate rest.length 0 + {0} := by
          rw [List.length_cons, Multiset.replicate_succ, ← Multiset.singleton_add,
            add_comm]
        have e2 : (((a :: rest).map fun im => im + 1 : List Nat) : Multiset Nat) =
            {a + 1} + ((rest.map fun im => im + 1 : List Nat) : Multiset Nat) := by
          rw [List.map_cons, ← Multiset.cons_coe, ← Multiset.singleton_add]
        rw [e1, e2, ← add_assoc, hrest.2, add_comm ({a + 1} : Multiset Nat),
          ← add_assoc, add_right_comm, hrc, add_right_comm]

theorem hungarianRun_perm (cost : Nat → Nat → Int) (n : Nat) (gf : HGlobal)
    (h : hungarianRun cost n = some gf) :
    ((List.range n).map fun jm => gf.p (jm + 1)).Perm
      ((List.range n).map fun im => im + 1) := by
  rw [hungarianRun] at h
  have hrun := hungarianRunGo cost n (List.range n)
    ⟨fun _ => 0, fun _ => 0, fun _ => 0, fun _ => 0⟩ gf
    (fun j => Nat.zero_le n) h
  have h2 := hrun.2
  have hz : colVals n (fun _ => (0 : Nat)) = Multiset.replicate n 0 := by
    rw [colVals]
    simp [Multiset.coe_replicate]
  rw [List.length_range,
    show (⟨fun _ => 0, fun _ => 0, fun _ => 0, fun _ => 0⟩ : HGlobal).p =
      fun _ => (0 : Nat) from rfl, hz, add_comm (Multiset.replicate n 0)] at h2
  have h3 : colVals n gf.p =
      (((List.range n).map fun im => im + 1 : List Nat) : Multiset Nat) :=
    add_right_cancel h2
  rw [colVals] at h3
  exact Multiset.coe_eq_coe.mp h3

theorem setFold_skip (q : Nat → Nat) :
    ∀ (js : List Nat) (res : List Nat) (i : Nat),
      (∀ jm ∈ js, q jm ≠ i + 1) →
      (js.foldl (fun r jm => if 0 < q jm then r.set (q jm - 1) jm else r)
        res).getD i 0 = res.getD i 0 := by
  intro js
  induction js with
  | nil => intro res i _; rfl
  | cons a as ih =>
    intro res i hne
    rw [List.foldl_cons, ih _ i (fun jm hm => hne jm (List.mem_cons_of_mem a hm))]
    show ((if 0 < q a then res.set (q a - 1) a else res).getD i 0) = res.getD i 0
    by_cases hp : 0 < q a
    · rw [if_pos hp]
      have hne2 : q a - 1 ≠ i := by
        have := hne a (List.mem_cons_self a as)
        omega
      rw [List.getD_eq_getElem?_getD, List.getD_eq_getElem?_getD,
        List.getElem?_set_ne hne2]
    · rw [if_neg hp]

theorem setFold_length (q : Nat → Nat) (js : List Nat) (res : List Nat) :
    (js.foldl (fun r jm => if 0 < q jm then r.set (q jm - 1) jm else r)
      res).length = res.length := by
  refine foldlInv (fun r : List Nat => r.length = res.length) _ js res rfl ?_
  intro s jm _ hs
  show (if 0 < q jm then s.set (q jm - 1) jm else s).length = res.length
  by_cases hp : 0 < q jm
  · rw [if_pos hp, List.length_set]
    exact hs
  · rw [if_neg hp]
    exact hs

theorem setFold_inverse (q : Nat → Nat) :
    ∀ (js : List Nat) (res : List Nat) (i jm0 : Nat),
      js.Pairwise (fun a b => q a ≠ q b) →
      jm0 ∈ js → q jm0 = i + 1 → i < res.length →
      (js.foldl (fun r jm => if 0 < q jm then r.set (q jm - 1) jm else r)
        res).getD i 0 = jm0 := by
  intro js
  induction js with
  | nil => intro res i jm0 _ h _ _; exact absurd h (List.not_mem_nil jm0)
  | cons a as ih =>
    intro res i jm0 hpw hmem hq hi
    rw [List.foldl_cons]
    rcases List.mem_cons.mp hmem with rfl | hmem2
    · have hskip : ∀ jm ∈ as, q jm ≠ i + 1 := by
        intro jm hjm he
        exact (List.pairwise_cons.mp hpw).1 jm hjm (by rw [hq, he])
      rw [setFold_skip q as _ i hskip]
      show ((if 0 < q jm0 then res.set (q jm0 - 1) jm0 else res).getD i 0) = jm0
      rw [if_pos (by omega : 0 < q jm0)]
      have he : q jm0 - 1 = i := by omega
      rw [he, List.getD_eq_getElem?_getD, List.getElem?_set_eq_of_lt jm0 hi,
        Option.getD_some]
    · have hi2 : i < ((fun r jm =>
          if 0 < q jm then r.set (q jm - 1) jm else r) res a).length := by
        show i < (if 0 < q a then res.set (q a - 1) a else res).length
        by_cases hp : 0 < q a
        · rw [if_pos hp, List.length_set]
          exact hi
        · rw [if_neg hp]
          exact hi
      exact ih _ i jm0 (List.pairwise_cons.mp hpw).2 hmem2 hq hi2

theorem filterMapMatch_oneToOne (L R : List CstNode) (W : List (List Int))
    (A : List Nat) (n : Nat)
    (hL : (nodeIds L).Nodup) (hR : (nodeIds R).Nodup)
    (hlen : A.length = n)
    (hinj : ∀ i1 i2, i1 < n → i2 < n → A.getD i1 0 = A.getD i2 0 → i1 = i2) :
    pairsOneToOne ((List.range A.length).filterMap fun i =>
      let j := A.getD i 0
      if i < L.length && j < R.length && 0 < (W.getD i []).getD j 0 then
        some ⟨(L.getD i default).id, (R.getD j default).id,
          ((W.getD i []).getD j 0).toNat⟩
      else none) := by
  rw [hlen]
  have hspec : ∀ (a : Nat) (x : MatchPair),
      ((fun i =>
        let j := A.getD i 0
        if i < L.length && j < R.length && 0 < (W.getD i []).getD j 0 then
          some (⟨(L.getD i default).id, (R.getD j default).id,
            ((W.getD i []).getD j 0).toNat⟩ : MatchPair)
        else none) a = some x) →
      a < L.length ∧ A.getD a 0 < R.length ∧
        x = ⟨(L.getD a default).id, (R.getD (A.getD a 0) default).id,
          ((W.getD a []).getD (A.getD a 0) 0).toNat⟩ := by
    intro a x hx
    replace hx : (if a < L.length && A.getD a 0 < R.length &&
        0 < (W.getD a []).getD (A.getD a 0) 0 then
          some (⟨(L.getD a default).id, (R.getD (A.getD a 0) default).id,
            ((W.getD a []).getD (A.getD a 0) 0).toNat⟩ : MatchPair)
        else none) = some x := hx
    by_cases hc : a < L.length && A.getD a 0 < R.length &&
        0 < (W.getD a []).getD (A.getD a 0) 0
    · rw [if_pos hc] at hx
      have hcc := hc
      simp only [Bool.and_eq_true, decide_eq_true_eq] at hcc
      injection hx with h
      exact ⟨hcc.1.1, hcc.1.2, h.symm⟩
    · rw [if_neg hc] at hx
      exact absurd hx (by simp)
  have base : (List.range n).Pairwise (fun a b => a < n ∧ b < n ∧ a < b) :=
    List.Pairwise.imp_of_mem
      (fun ha hb h => ⟨List.mem_range.mp ha, List.mem_range.mp hb, h⟩)
      (List.pairwise_lt_range n)
  refine ⟨?_, ?_⟩
  · apply List.pairwise_map.mpr
    refine List.Pairwise.filterMap _ ?_ base
    intro a b hr x hx y hy
    rw [Option.mem_def] at hx hy
    obtain ⟨han, hbn, hab⟩ := hr
    obtain ⟨haL, haR, rfl⟩ := hspec a x hx
    obtain ⟨hbL, hbR, rfl⟩ := hspec b y hy
    show (L.getD a default).id ≠ (L.getD b default).id
    intro heq
    have := getD_id_inj L hL a b haL hbL heq
    omega
  · apply List.pairwise_map.mpr
    refine List.Pairwise.filterMap _ ?_ base
    intro a b hr x hx y hy
    rw [Option.mem_def] at hx hy
    obtain ⟨han, hbn, hab⟩ := hr
    obtain ⟨haL, haR, rfl⟩ := hspec a x hx
    obtain ⟨hbL, hbR, rfl⟩ := hspec b y hy
    show (R.getD (A.getD a 0) default).id ≠ (R.getD (A.getD b 0) default).id
    intro heq
    have hj := getD_id_inj R hR (A.getD a 0) (A.getD b 0) haR hbR heq
    have := hinj a b han hbn hj
    omega

theorem bipartiteMatch_oneToOne (L R : List CstNode)
    (hL : (nodeIds L).Nodup) (hR : (nodeIds R).Nodup)
    (hrun : bipartiteRunOk L R = true) :
    pairsOneToOne (bipartiteMatch L R) := by
  rw [bipartiteMatch]
  by_cases h0 : L.length = 0 || R.length = 0
  · rw [if_pos h0]
    exact ⟨List.nodup_nil, List.nodup_nil⟩
  · rw [if_neg h0]
    rw [bipartiteRunOk] at hrun
    have hrun2 : (hungarianRun
        (fun i j => listMaxD ((bipartiteWeights L R).flatMap fun r => r) -
          ((bipartiteWeights L R).getD i []).getD j 0)
        (max L.length R.length)).isSome = true := hrun
    obtain ⟨gf, hgf⟩ := Option.isSome_iff_exists.mp hrun2
    have hperm := hungarianRun_perm _ (max L.length R.length) gf hgf
    have hr1 : ((List.range (max L.length R.length)).map fun im => im + 1).Nodup := by
      refine List.Nodup.map ?_ (List.nodup_range _)
      intro a b h
      have h2 : a + 1 = b + 1 := h
      omega
    have hqnodup := hperm.nodup_iff.mpr hr1
    have hpair : (List.range (max L.length R.length)).Pairwise
        (fun a b => gf.p (a + 1) ≠ gf.p (b + 1)) := List.pairwise_map.mp hqnodup
    have hsurj : ∀ i, i < max L.length R.length →
        ∃ jm, jm < max L.length R.length ∧ gf.p (jm + 1) = i + 1 := by
      intro i hi
      have hmem : i + 1 ∈ (List.range (max L.length R.length)).map
          fun im => im + 1 := List.mem_map.mpr ⟨i, List.mem_range.mpr hi, rfl⟩
      obtain ⟨jm, hjm, he⟩ := List.mem_map.mp (hperm.mem_iff.mpr hmem)
      exact ⟨jm, List.mem_range.mp hjm, he⟩
    have hassign : hungarianMax (bipartiteWeights L R) (max L.length R.length) =
        (List.range (max L.length R.length)).foldl
          (fun res jm =>
            let pj := gf.p (jm + 1)
            if 0 < pj then res.set (pj - 1) jm else res)
          (List.replicate (max L.length R.length) 0) := by
      have hne : ¬(max L.length R.length = 0) := by
        simp only [Bool.or_eq_true, decide_eq_true_eq, not_or] at h0
        omega
      rw [hungarianMax, if_neg hne]
      simp only [hgf]
    have hlenA : (hungarianMax (bipartiteWeights L R)
        (max L.length R.length)).length = max L.length R.length := by
      rw [hassign]
      have := setFold_length (fun jm => gf.p (jm + 1))
        (List.range (max L.length R.length))
        (List.replicate (max L.length R.length) 0)
      rw [List.length_replicate] at this
      exact this
    have hchar : ∀ i, i < max L.length R.length →
        gf.p ((hungarianMax (bipartiteWeights L R)
          (max L.length R.length)).getD i 0 + 1) = i + 1 := by
      intro i hi
      obtain ⟨jm, hjm, hq⟩ := hsurj i hi
      have hres := setFold_inverse (fun jm => gf.p (jm + 1))
        (List.range (max L.length R.length))
        (List.replicate (max L.length R.length) 0) i jm hpair
        (List.mem_range.mpr hjm) hq
        (by rw [List.length_replicate]; exact hi)
      have hres2 : (hungarianMax (bipartiteWeights L R)
          (max L.length R.length)).getD i 0 = jm := by
        rw [hassign]
        exact hres
      rw [hres2]
      exact hq
    have hinj : ∀ i1 i2, i1 < max L.length R.length →
        i2 < max L.length R.length →
        (hungarianMax (bipartiteWeights L R) (max L.length R.length)).getD i1 0 =
          (hungarianMax (bipartiteWeights L R) (max L.length R.length)).getD i2 0 →
        i1 = i2 := by
      intro i1 i2 h1 h2 he
      have c1 := hchar i1 h1
      have c2 := hchar i2 h2
      rw [he, c2] at c1
      omega
    exact filterMapMatch_oneToOne L R (bipartiteWeights L R)
      (hungarianMax (bipartiteWeights L R) (max L.length R.length))
      (max L.length R.length) hL hR hlenA hinj

theorem yangMatch_oneToOne (L R : List CstNode)
    (hL : (nodeIds L).Nodup) (hR : (nodeIds R).Nodup) :
    pairsOneToOne (yangMatch L R) := by
  rw [yangMatch]
  by_cases h0 : L.length = 0 || R.length = 0
  · rw [if_pos h0]
    exact ⟨List.nodup_nil, List.nodup_nil⟩
  · rw [if_neg h0]
    obtain ⟨idx, hb, hp, he⟩ :=
      yangTraceGo_shape L R (yangTable L R) (L.length + R.length + 1)
        L.length R.length
    rw [he]
    constructor
    · rw [List.map_reverse, List.nodup_reverse, List.map_map]
      exact mapIdxNodup L hL idx Prod.fst (fun q hq => (hb q hq).1)
        (hp.imp fun h => h.1)
    · rw [List.map_reverse, List.nodup_reverse, List.map_map]
      exact mapIdxNodup R hR idx Prod.snd (fun q hq => (hb q hq).2)
        (hp.imp fun h => h.2)

/-- C7: matching injectivity — the `MatchPair` lists returned by
`yang_match` (ordered children) and `bipartite_match` (unordered
children) are one-to-one on each side: no left node id appears in two
pairs and no right node id appears in two pairs. Hypotheses: the ids on
each side are pairwise distinct (the parser guarantees this by
construction via its fresh-id counter), and the modelled Hungarian
augmenting-path loops of `hungarian_max` all break within their fuel
(they always do on the engine's inputs; the model returns a fixed
default assignment otherwise). -/
theorem matching_injectivity (L R : List CstNode)
    (hL : (nodeIds L).Nodup) (hR : (nodeIds R).Nodup)
    (hrun : bipartiteRunOk L R = true) :
    pairsOneToOne (yangMatch L R) ∧ pairsOneToOne (bipartiteMatch L R) :=
  ⟨yangMatch_oneToOne L R hL hR, bipartiteMatch_oneToOne L R hL hR hrun⟩

/-- Witness for C7 at concrete two-element child sequences: the
hypotheses hold there and the matchings are one-to-one. -/
theorem matching_injectivity_witness :
    ((nodeIds wML).Nodup ∧ (nodeIds wMR).Nodup ∧
      bipartiteRunOk wML wMR = true) ∧
    (pairsOneToOne (yangMatch wML wMR) ∧ pairsOneToOne (bipartiteMatch wML wMR)) :=
  ⟨⟨by decide, by decide, by decide⟩,
    matching_injectivity wML wMR (by decide) (by decide) (by decide)⟩

end Tinyclaw
